import Mathlib

/-!
# base91: a shallow embedding of `base91.go`

Bytes are natural numbers below 256, byte slices and strings are `List Nat`.
A Go run-time panic (index out of range) is the result `none`.
Unsigned 64-bit arithmetic is `Nat` reduced modulo `2^64`, signed 64-bit
arithmetic is `Int` wrapped into `[-2^63, 2^63)`.
-/

namespace Base91

/-! ## Machine arithmetic -/

/-- Truncation to an unsigned 64-bit register. -/
def u64 (x : Nat) : Nat := x % 2 ^ 64

/-- Subtraction on `uint64` (wraps around below zero). -/
def subU64 (a b : Nat) : Nat := (a + 2 ^ 64 - b % 2 ^ 64) % 2 ^ 64

/-- Wrapping of an integer into the signed 64-bit range. -/
def i64 (x : Int) : Int := (x + 2 ^ 63) % 2 ^ 64 - 2 ^ 63

/-- Conversion `byte(x)` of a signed integer: its low eight bits. -/
def toByte (x : Int) : Nat := (x % 256).toNat

/-- The store `dst[i] = x` on a slice: a panic when `i` is out of range. -/
def writeAt (dst : List Nat) (i : Nat) (x : Nat) : Option (List Nat) :=
  if i < dst.length then some (dst.set i x) else none

/-! ## Errors -/

/-- Go `error` values that occur in the package:
`CorruptInputError` (an `int64` offset) and `io.EOF`. -/
inductive Error where
  | CorruptInputError (offset : Int)
  | EOF
  deriving DecidableEq, Repr

/-! ## Alphabet table -/

/-- The type `Encoding`: the alphabet `encode` and the reverse table
`decodeMap` (a `[256]byte`). -/
structure Encoding where
  encode : List Nat
  decodeMap : List Nat
  deriving DecidableEq, Repr

/-- The text of the constant `encodeStd`. -/
def encodeStdText : String :=
  "ABCDEFGHIJKLMNOPQRSTUVWXYZabcdefghijklmnopqrstuvwxyz0123456789!#$%&()*+,./:;<=>?@[]^_`\x7b|\x7d~\""

/-- The constant `encodeStd`, as its bytes. -/
def encodeStd : List Nat :=
  [65, 66, 67, 68, 69, 70, 71, 72, 73, 74, 75, 76, 77, 78, 79, 80, 81, 82, 83,
   84, 85, 86, 87, 88, 89, 90,
   97, 98, 99, 100, 101, 102, 103, 104, 105, 106, 107, 108, 109, 110, 111, 112,
   113, 114, 115, 116, 117, 118, 119, 120, 121, 122,
   48, 49, 50, 51, 52, 53, 54, 55, 56, 57,
   33, 35, 36, 37, 38, 40, 41, 42, 43, 44, 46, 47, 58, 59, 60, 61, 62, 63, 64,
   91, 93, 94, 95, 96, 123, 124, 125, 126, 34]

/-- The second loop of `NewEncoding`, from index `i` on:
`e.decodeMap[encoder[i]] = byte(i)`. -/
def fillDecodeMap : List Nat → Nat → List Nat → List Nat
  | [], _, m => m
  | c :: rest, i, m => fillDecodeMap rest (i + 1) (m.set c (i % 256))

/-- The constructor `NewEncoding`. -/
def NewEncoding (encoder : List Nat) : Encoding :=
  { encode := encoder
    decodeMap := fillDecodeMap encoder 0 (List.replicate 256 0xFF) }

/-- The package variable `StdEncoding`. -/
def StdEncoding : Encoding := NewEncoding encodeStd

/-! ## Encoder -/

/-- Local variables of `Encode` together with the destination slice. -/
structure EncState where
  n : Nat
  b : Nat
  v : Nat
  pos : Nat
  dst : List Nat
  deriving DecidableEq, Repr

/-- The stores that close an emission in `Encode`:
`dst[pos] = enc.encode[v%91]; pos++; dst[pos] = enc.encode[v/91]; pos++`,
with the values `v`, `b`, `n` the branch has left. -/
def encodePair (enc : Encoding) (s : EncState) (v b n : Nat) : Option EncState := do
  let c0 ← enc.encode[v % 91]?
  let dst ← writeAt s.dst s.pos c0
  let pos := s.pos + 1
  let c1 ← enc.encode[v / 91]?
  let dst ← writeAt dst pos c1
  let pos := pos + 1
  pure { n := n, b := b, v := v, pos := pos, dst := dst }

/-- One iteration of the loop `for _, abyte := range src` of `Encode`. -/
def encodeByte (enc : Encoding) (s : EncState) (abyte : Nat) : Option EncState :=
  let ubyte := u64 abyte
  let b := s.b ||| u64 ((ubyte &&& 255) <<< s.n)
  let n := u64 (s.n + 8)
  if n > 13 then
    let v := b &&& 8191
    if v > 88 then
      encodePair enc s v (b >>> 13) (subU64 n 13)
    else
      encodePair enc s (b &&& 16383) (b >>> 14) (subU64 n 14)
  else
    some { s with n := n, b := b }

/-- The loop `for _, abyte := range src` of `Encode`. -/
def encodeLoop (enc : Encoding) : EncState → List Nat → Option EncState
  | s, [] => some s
  | s, abyte :: rest =>
    match encodeByte enc s abyte with
    | none => none
    | some s1 => encodeLoop enc s1 rest

/-- The tail of `Encode`, after the loop: the statement `if n > 0`. -/
def encodeTail (enc : Encoding) (s : EncState) : Option (List Nat) :=
  if s.n > 0 then
    do
      let c0 ← enc.encode[s.b % 91]?
      let dst ← writeAt s.dst s.pos c0
      if s.n > 7 ∨ s.b > 90 then
        let c1 ← enc.encode[s.b / 91]?
        writeAt dst s.pos c1
      else
        pure dst
  else
    some s.dst

/-- The method `Encode`: the contents of `dst` afterwards. -/
def Encoding.Encode (enc : Encoding) (dst src : List Nat) : Option (List Nat) :=
  if src.length = 0 then some dst
  else
    match encodeLoop enc { n := 0, b := 0, v := 0, pos := 0, dst := dst } src with
    | none => none
    | some s => encodeTail enc s

/-- The method `EncodeToString`. -/
def Encoding.EncodeToString (enc : Encoding) (src : List Nat) : Option (List Nat) :=
  let buf := List.replicate (src.length * 2) 0
  enc.Encode buf src

/-- The stream type `encoder`; the sink `w` is the bytes written to it so far. -/
structure encoder where
  err : Option Error
  enc : Encoding
  w : List Nat
  out : List Nat
  deriving DecidableEq, Repr

/-- The method `Write` of `encoder`: the encoder afterwards and the results
`(n, err)`. -/
def encoder.Write (e : encoder) (p : List Nat) : Option (encoder × Nat × Option Error) :=
  if e.err ≠ none then some (e, 0, e.err)
  else
    match e.enc.Encode e.out p with
    | none => none
    | some out => some ({ e with out := out }, 0, none)

/-- The method `Close` of `encoder`. -/
def encoder.Close (e : encoder) : Option Error := e.err

/-- The constructor `NewEncoder`: the fields `err` and `out` keep their zero
values (`nil`). -/
def NewEncoder (enc : Encoding) (w : List Nat) : encoder :=
  { err := none, enc := enc, w := w, out := [] }

/-! ## UTF-8 (Go standard library)

`range` over a string and `bytes.Map`/`strings.Map` walk the text rune by
rune. An ASCII byte is a rune of its own. -/

/-- The rune `utf8.RuneError`. -/
def RuneError : Nat := 0xFFFD

/-- Whether `b` is a continuation byte within `lo..hi`. -/
def inRange (lo hi b : Nat) : Bool := decide (lo ≤ b) && decide (b ≤ hi)

/-- The function `utf8.DecodeRune` on a non-empty text `b0 :: rest`: the
rune at its head and the rune's width in bytes. An invalid or short sequence
is `(RuneError, 1)`. -/
def decodeRune (b0 : Nat) (rest : List Nat) : Nat × Nat :=
  if b0 < 0x80 then (b0, 1)
  else if inRange 0xC2 0xDF b0 then
    match rest with
    | b1 :: _ =>
      if inRange 0x80 0xBF b1 then (((b0 &&& 0x1F) <<< 6) ||| (b1 &&& 0x3F), 2)
      else (RuneError, 1)
    | _ => (RuneError, 1)
  else if inRange 0xE0 0xEF b0 then
    let lo := if b0 = 0xE0 then 0xA0 else 0x80
    let hi := if b0 = 0xED then 0x9F else 0xBF
    match rest with
    | b1 :: b2 :: _ =>
      if inRange lo hi b1 && inRange 0x80 0xBF b2 then
        (((b0 &&& 0x0F) <<< 12) ||| ((b1 &&& 0x3F) <<< 6) ||| (b2 &&& 0x3F), 3)
      else (RuneError, 1)
    | _ => (RuneError, 1)
  else if inRange 0xF0 0xF4 b0 then
    let lo := if b0 = 0xF0 then 0x90 else 0x80
    let hi := if b0 = 0xF4 then 0x8F else 0xBF
    match rest with
    | b1 :: b2 :: b3 :: _ =>
      if inRange lo hi b1 && inRange 0x80 0xBF b2 && inRange 0x80 0xBF b3 then
        (((b0 &&& 0x07) <<< 18) ||| ((b1 &&& 0x3F) <<< 12) ||| ((b2 &&& 0x3F) <<< 6)
          ||| (b3 &&& 0x3F), 4)
      else (RuneError, 1)
    | _ => (RuneError, 1)
  else (RuneError, 1)

/-- The runes of a text, with `skip` bytes of the current rune still to pass. -/
def runesAux : Nat → List Nat → List Nat
  | _, [] => []
  | 0, b0 :: rest => (decodeRune b0 rest).1 :: runesAux ((decodeRune b0 rest).2 - 1) rest
  | skip + 1, _ :: rest => runesAux skip rest

/-- The runes that `range` over the text yields. -/
def runes (s : List Nat) : List Nat := runesAux 0 s

/-- The function `utf8.AppendRune`: the UTF-8 bytes of a rune. -/
def encodeRune (r : Nat) : List Nat :=
  if r ≤ 0x7F then [r]
  else if r ≤ 0x7FF then [0xC0 ||| (r >>> 6), 0x80 ||| (r &&& 0x3F)]
  else if r > 0x10FFFF ∨ (0xD800 ≤ r ∧ r ≤ 0xDFFF) then [0xEF, 0xBF, 0xBD]
  else if r ≤ 0xFFFF then
    [0xE0 ||| (r >>> 12), 0x80 ||| ((r >>> 6) &&& 0x3F), 0x80 ||| (r &&& 0x3F)]
  else
    [0xF0 ||| (r >>> 18), 0x80 ||| ((r >>> 12) &&& 0x3F), 0x80 ||| ((r >>> 6) &&& 0x3F),
      0x80 ||| (r &&& 0x3F)]

/-- The body of `bytes.Map` and `strings.Map` over the runes of the text: a
rune mapped to a negative value is dropped, any other is appended in UTF-8. -/
def mapRunes (mapping : Int → Int) : List Nat → List Nat
  | [] => []
  | c :: rest =>
    (if 0 ≤ mapping c then encodeRune (mapping c).toNat else []) ++ mapRunes mapping rest

/-- The functions `bytes.Map` and `strings.Map`. -/
def Map (mapping : Int → Int) (s : List Nat) : List Nat := mapRunes mapping (runes s)

/-- The package variable `removeNewlinesMapper`. -/
def removeNewlinesMapper (r : Int) : Int :=
  if r = 13 ∨ r = 10 then -1 else r

/-! ## Decoder -/

/-- Local variables of `decode` together with the destination slice. -/
structure DecState where
  v : Int
  b : Int
  c : Nat
  outpos : Nat
  n : Nat
  dst : List Nat
  deriving DecidableEq, Repr

/-- The loop `for pos, char := range encodeStd` of `decode`, from position
`pos` on, over a `map[rune]int` (an absent key reads as 0). -/
def buildDecodemap : List Nat → Nat → (Nat → Nat) → (Nat → Nat)
  | [], _, m => m
  | char :: rest, pos, m =>
    buildDecodemap rest (pos + 1) (fun k => if k = char then pos else m k)

/-- The inner loop `for { ... if n <= 7 { break } }` of `decode`. Every turn
stores at a fresh index of `dst`, so the loop leaves or panics within
`len(dst) + 1` turns; `fuel` counts them. -/
def decodeEmit : Nat → DecState → Option DecState
  | 0, _ => none
  | fuel + 1, s =>
    match writeAt s.dst s.outpos (toByte (Int.land s.b 255)) with
    | none => none
    | some dst =>
      let s1 := { s with dst := dst, outpos := s.outpos + 1, b := s.b >>> 8, n := subU64 s.n 8 }
      if s1.n ≤ 7 then some s1 else decodeEmit fuel s1

/-- One iteration of the loop `for _, char := range string(src)` of `decode`. -/
def decodeChar (decodemap : Nat → Nat) (s : DecState) (char : Nat) : Option DecState :=
  let c := if char ∈ encodeStd then decodemap char else s.c
  if s.v < 0 then
    some { s with c := c, v := (c : Int) }
  else
    let v := i64 (s.v + i64 ((c : Int) * 91))
    let b := Int.lor s.b (i64 (v * 2 ^ s.n))
    let n := if Int.land v 8191 > 88 then u64 (s.n + 13) else 14
    match decodeEmit (s.dst.length + 1) { s with c := c, v := v, b := b, n := n } with
    | none => none
    | some s1 => some { s1 with v := -1 }

/-- The loop `for _, char := range string(src)` of `decode`, over the runes. -/
def decodeLoop (decodemap : Nat → Nat) : DecState → List Nat → Option DecState
  | s, [] => some s
  | s, char :: rest =>
    match decodeChar decodemap s char with
    | none => none
    | some s1 => decodeLoop decodemap s1 rest

/-- The body of `decode` up to its `return`: the local variables at the end. -/
def decodeRun (_enc : Encoding) (dst src : List Nat) : Option DecState :=
  let decodemap := buildDecodemap encodeStd 0 (fun _ => 0)
  match decodeLoop decodemap { v := -1, b := 0, c := 0, outpos := 0, n := 0, dst := dst }
      (runes src) with
  | none => none
  | some s =>
    if i64 (s.v + 1) > 0 then
      match writeAt s.dst s.outpos
          (toByte (Int.land (Int.lor s.b (i64 (s.v * 2 ^ s.n))) 255)) with
      | none => none
      | some dst => some { s with dst := dst, outpos := s.outpos + 1 }
    else some s

/-- The results `(num, err)` of `decode` and `Decode`, with the contents of
`dst` afterwards. -/
structure DecodeResult where
  num : Nat
  err : Option Error
  dst : List Nat
  deriving DecidableEq, Repr

/-- The method `decode`: `return len(dst), nil`. -/
def Encoding.decode (enc : Encoding) (dst src : List Nat) : Option DecodeResult :=
  match decodeRun enc dst src with
  | none => none
  | some s => some { num := dst.length, err := none, dst := s.dst }

/-- The method `Decode`. -/
def Encoding.Decode (enc : Encoding) (dst src : List Nat) : Option DecodeResult :=
  let src := Map removeNewlinesMapper src
  enc.decode dst src

/-- The method `DecodedLen`. -/
def Encoding.DecodedLen (_enc : Encoding) (n : Nat) : Nat := n * 2

/-- The method `DecodeString`: the returned slice `dbuf[:n]` and the error. -/
def Encoding.DecodeString (enc : Encoding) (s : List Nat) : Option (List Nat × Option Error) :=
  let s := Map removeNewlinesMapper s
  let dbuf := List.replicate (enc.DecodedLen s.length) 0
  match enc.Decode dbuf s with
  | none => none
  | some r => if r.num ≤ r.dst.length then some (r.dst.take r.num, r.err) else none

/-- An upstream `io.Reader`, as the script of the results of its successive
`Read` calls: the bytes delivered and the error. -/
structure Reader where
  script : List (List Nat × Option Error)
  deriving DecidableEq, Repr

/-- The type `newlineFilteringReader`. -/
structure newlineFilteringReader where
  wrapped : Reader
  deriving DecidableEq, Repr

/-- The stream type `decoder`. -/
structure decoder where
  err : Option Error
  enc : Encoding
  r : newlineFilteringReader
  out : List Nat
  outbuf : List Nat
  deriving DecidableEq, Repr

/-- The method `Read` of `decoder`: the decoder and the caller's buffer `p`
afterwards, and the results `(n, err)`. -/
def decoder.Read (d : decoder) (p : List Nat) :
    Option (decoder × List Nat × Nat × Option Error) :=
  if d.err ≠ none then some (d, p, 0, d.err)
  else
    match d.enc.Decode d.out p with
    | none => none
    | some r => some ({ d with out := r.dst }, p, d.out.length, none)

/-- The constructor `NewDecoder`: `err` and `out` keep their zero values
(`nil`), `outbuf` is a zeroed array of `1024 / 4 * 3` bytes. -/
def NewDecoder (enc : Encoding) (r : Reader) : decoder :=
  { err := none, enc := enc, r := { wrapped := r }, out := [],
    outbuf := List.replicate (1024 / 4 * 3) 0 }

/-! ## Newline filter -/

/-- One `Read(p)` of the upstream reader: the next result of the script is
delivered into the front of `p` (no more of it than `p` holds); an exhausted
script reads as `(0, io.EOF)`. The results are the reader and `p` afterwards
and `(n, err)`. -/
def Reader.Read (r : Reader) (p : List Nat) : Reader × List Nat × Nat × Option Error :=
  match r.script with
  | [] => (r, p, 0, some Error.EOF)
  | (chunk, err) :: rest =>
    ({ script := rest }, chunk.take p.length ++ p.drop (chunk.take p.length).length,
      (chunk.take p.length).length, err)

/-- The loop `for i, b := range p[0:n]` of `newlineFilteringReader.Read`,
from index `i` on with `count` elements to go: the buffer and `offset`
afterwards. -/
def compactLoop : Nat → List Nat → Nat → Nat → List Nat × Nat
  | 0, p, offset, _ => (p, offset)
  | count + 1, p, offset, i =>
    let b := p[i]?.getD 0
    if b ≠ 13 ∧ b ≠ 10 then
      compactLoop count (if i ≠ offset then p.set offset b else p) (offset + 1) (i + 1)
    else
      compactLoop count p offset (i + 1)

/-- The loop `for n > 0` of `newlineFilteringReader.Read`, entered with the
results `(n, err)` of the last upstream read. Every turn but the last reads
upstream once more, so the loop leaves within `len(script) + 2` turns;
`fuel` counts them. The slice `p[0:n]` panics when `n` exceeds `len(p)`. -/
def filterLoop : Nat → Reader → List Nat → Nat → Option Error →
    Option (Reader × List Nat × Nat × Option Error)
  | 0, _, _, _, _ => none
  | fuel + 1, w, p, n, err =>
    if n > 0 then
      if n ≤ p.length then
        if (compactLoop n p 0 0).2 > 0 then
          some (w, (compactLoop n p 0 0).1, (compactLoop n p 0 0).2, err)
        else
          filterLoop fuel (w.Read (compactLoop n p 0 0).1).1
            (w.Read (compactLoop n p 0 0).1).2.1
            (w.Read (compactLoop n p 0 0).1).2.2.1
            (w.Read (compactLoop n p 0 0).1).2.2.2
      else none
    else some (w, p, n, err)

/-- The method `Read` of `newlineFilteringReader`: the reader and the
caller's buffer `p` afterwards, and the results `(n, err)`. -/
def newlineFilteringReader.Read (r : newlineFilteringReader) (p : List Nat) :
    Option (newlineFilteringReader × List Nat × Nat × Option Error) :=
  match filterLoop (r.wrapped.script.length + 2) (r.wrapped.Read p).1 (r.wrapped.Read p).2.1
      (r.wrapped.Read p).2.2.1 (r.wrapped.Read p).2.2.2 with
  | none => none
  | some (w, p1, n, err) => some ({ wrapped := w }, p1, n, err)

/-! ## Relations used in the statements -/

/-- The text `t'` is the text `t` with `'\r'` (13) and `'\n'` (10) bytes
inserted at arbitrary positions. -/
inductive InsertsNewlines : List Nat → List Nat → Prop where
  | done : InsertsNewlines [] []
  | keep (c : Nat) {t t' : List Nat} : InsertsNewlines t t' → InsertsNewlines (c :: t) (c :: t')
  | cr {t t' : List Nat} : InsertsNewlines t t' → InsertsNewlines t (13 :: t')
  | lf {t t' : List Nat} : InsertsNewlines t t' → InsertsNewlines t (10 :: t')

/-- A byte that is neither an ASCII letter nor an ASCII digit. -/
def isPunctuation (c : Nat) : Bool :=
  !(inRange 65 90 c || inRange 97 122 c || inRange 48 57 c)

/-- The bytes that `removeNewlinesMapper` keeps. -/
def notNewline (c : Nat) : Bool := !(c == 13 || c == 10)

/-- A chunk made only of `'\r'`/`'\n'` bytes: it has bytes, and all of them
are line breaks. -/
def blankChunk (c : List Nat × Option Error) : Bool :=
  !c.1.isEmpty && c.1.all (fun b => !notNewline b)

/-- A chunk containing at least one byte other than `'\r'`/`'\n'`. -/
def dataChunk (c : List Nat × Option Error) : Bool := c.1.any notNewline

/-- What the newline filter is to return on the upstream results `full`:
the reader `w` has passed the leading blank chunks and one more result; a
count `k > 0` is the number of bytes other than line breaks of the first
chunk that has data, which is the result next to the blank chunks, and
comes with those bytes, in order, in `p1[0:k]` and with that chunk's error; a count `k = 0` comes only when the upstream result
after the blank chunks had no bytes, with that result's error (`io.EOF` when
the script was exhausted). -/
def FilterPost (full : List (List Nat × Option Error)) (w : Reader) (p1 : List Nat)
    (k : Nat) (e : Option Error) : Prop :=
  w.script = (full.dropWhile blankChunk).drop 1 ∧
  (0 < k → ∃ d, (full.dropWhile blankChunk).head? = some d ∧ full.find? dataChunk = some d ∧
    k = (d.1.filter notNewline).length ∧ p1.take k = d.1.filter notNewline ∧ e = d.2) ∧
  (k = 0 → (∀ d, (full.dropWhile blankChunk).head? = some d → d.1 = [] ∧ e = d.2) ∧
    (full.dropWhile blankChunk = [] → e = some Error.EOF))

/-- The state of `decode` between two symbols with `k` symbols still to
come: fewer than eight bits are held, and the destination has room for the
bytes the remaining symbols (and a pending first symbol of a pair) store. -/
def DecInv (s : DecState) (k : Nat) : Prop :=
  s.n ≤ 7 ∧
  ((s.v = -1 ∧ s.outpos + k ≤ s.dst.length) ∨ (0 ≤ s.v ∧ s.outpos + k + 1 ≤ s.dst.length))

/-- The state of `Encode` after `k` input bytes, over a destination that was
`dst0` at the start: at most 13 bits are held, the accumulator has no bit
beyond them, the last value emitted fits two base-91 digits, the symbols
stored so far used at least 13 bits per pair, and the destination is
untouched from `pos` on. -/
def EncInv (s : EncState) (k : Nat) (dst0 : List Nat) : Prop :=
  s.n ≤ 13 ∧ s.b < 2 ^ s.n ∧ s.v < 8281 ∧ 13 * s.pos + 2 * s.n ≤ 16 * k ∧
  s.dst.length = dst0.length ∧ ∀ i, s.pos ≤ i → s.dst[i]? = dst0[i]?

/-! ## The standard alphabet -/

/-- C8: the constant `encodeStd`, from which `StdEncoding` is built, has
exactly 91 bytes, pairwise distinct and all printable ASCII (0x21..0x7E);
`A`..`Z` stand at indices 0..25, `a`..`z` at 26..51, `0`..`9` at 52..61 and
29 punctuation symbols at 62..90. -/
theorem encodeStd_well_formed :
    encodeStd = encodeStdText.toList.map Char.toNat ∧
    StdEncoding.encode = encodeStd ∧
    encodeStd.length = 91 ∧
    encodeStd.Nodup ∧
    encodeStd.all (fun c => inRange 0x21 0x7E c) = true ∧
    encodeStd.take 26 = List.range' 65 26 ∧
    (encodeStd.drop 26).take 26 = List.range' 97 26 ∧
    (encodeStd.drop 52).take 10 = List.range' 48 10 ∧
    (encodeStd.drop 62).length = 29 ∧
    (encodeStd.drop 62).all isPunctuation = true := by
  refine ⟨by decide, rfl, rfl, by decide, by decide, by decide, by decide, by decide,
    by decide, by decide⟩

/-! ## The reverse table of `NewEncoding` -/

theorem fillDecodeMap_length (l : List Nat) (i : Nat) (m : List Nat) :
    (fillDecodeMap l i m).length = m.length := by
  induction l generalizing i m with
  | nil => rfl
  | cons c rest ih => simp [fillDecodeMap, ih]

theorem fillDecodeMap_not_mem (l : List Nat) (i : Nat) (m : List Nat) (c : Nat)
    (hc : c ∉ l) : (fillDecodeMap l i m)[c]? = m[c]? := by
  induction l generalizing i m with
  | nil => rfl
  | cons d rest ih =>
    have hd : d ≠ c := fun h => hc (h ▸ List.mem_cons_self _ _)
    have hr : c ∉ rest := fun h => hc (List.mem_cons_of_mem _ h)
    simp only [fillDecodeMap]
    rw [ih _ _ hr, List.getElem?_set_ne hd]

theorem fillDecodeMap_mem (l : List Nat) (i : Nat) (m : List Nat) (k c : Nat)
    (hnd : l.Nodup) (hb : ∀ x ∈ l, x < m.length) (hk : l[k]? = some c) :
    (fillDecodeMap l i m)[c]? = some ((i + k) % 256) := by
  induction l generalizing i m k with
  | nil => simp at hk
  | cons d rest ih =>
    have hnd2 := List.nodup_cons.mp hnd
    simp only [fillDecodeMap]
    cases k with
    | zero =>
      simp only [List.getElem?_cons_zero, Option.some.injEq] at hk
      subst hk
      rw [fillDecodeMap_not_mem _ _ _ _ hnd2.1]
      have hlt : d < m.length := hb d (List.mem_cons_self _ _)
      simp [List.getElem?_set_self, hlt]
    | succ j =>
      simp only [List.getElem?_cons_succ] at hk
      have h := ih (i + 1) (m.set d (i % 256)) j hnd2.2
        (fun x hx => by
          rw [List.length_set]
          exact hb x (List.mem_cons_of_mem _ hx)) hk
      rw [h]
      congr 2
      omega

/-- C7: for an alphabet of 91 pairwise distinct bytes, `NewEncoding` keeps
the alphabet unchanged, its table `decodeMap` sends the symbol at index `i`
to `i` for every `i < 91`, and sends every byte value outside the alphabet
to the sentinel `0xFF`. -/
theorem NewEncoding_decodeMap_inverse (alphabet : List Nat)
    (_hlen : alphabet.length = 91) (hnd : alphabet.Nodup)
    (hb : ∀ c ∈ alphabet, c < 256) :
    (NewEncoding alphabet).encode = alphabet ∧
    (NewEncoding alphabet).decodeMap.length = 256 ∧
    (∀ i c, i < 91 → alphabet[i]? = some c → (NewEncoding alphabet).decodeMap[c]? = some i) ∧
    (∀ c, c < 256 → c ∉ alphabet → (NewEncoding alphabet).decodeMap[c]? = some 0xFF) := by
  refine ⟨rfl, ?_, ?_, ?_⟩
  · show (fillDecodeMap alphabet 0 (List.replicate 256 0xFF)).length = 256
    rw [fillDecodeMap_length, List.length_replicate]
  · intro i c hi hc
    show (fillDecodeMap alphabet 0 (List.replicate 256 0xFF))[c]? = some i
    rw [fillDecodeMap_mem alphabet 0 (List.replicate 256 0xFF) i c hnd
      (fun x hx => by rw [List.length_replicate]; exact hb x hx) hc]
    congr 1
    omega
  · intro c hc hmem
    show (fillDecodeMap alphabet 0 (List.replicate 256 0xFF))[c]? = some 0xFF
    rw [fillDecodeMap_not_mem _ _ _ _ hmem, List.getElem?_replicate, if_pos hc]

/-- The theorem `NewEncoding_decodeMap_inverse` at the standard alphabet:
`'A'` (index 0) and `'"'` (index 90) are sent to their indices, and the byte
0x00, outside the alphabet, to the sentinel. -/
theorem NewEncoding_decodeMap_inverse_witness :
    encodeStd.length = 91 ∧ encodeStd.Nodup ∧ (∀ c ∈ encodeStd, c < 256) ∧
    StdEncoding.encode = encodeStd ∧
    StdEncoding.decodeMap[65]? = some 0 ∧
    StdEncoding.decodeMap[34]? = some 90 ∧
    StdEncoding.decodeMap[0]? = some 0xFF :=
  have h := NewEncoding_decodeMap_inverse encodeStd (by decide) (by decide) (by decide)
  ⟨by decide, by decide, by decide, h.1,
    h.2.2.1 0 65 (by decide) (by decide),
    h.2.2.1 90 34 (by decide) (by decide),
    h.2.2.2 0 (by decide) (by decide)⟩

/-! ## Line breaks and ASCII texts -/

theorem runesAux_ascii (s : List Nat) (h : ∀ c ∈ s, c < 128) : runesAux 0 s = s := by
  induction s with
  | nil => rfl
  | cons b rest ih =>
    have hb : b < 128 := h b (List.mem_cons_self _ _)
    have hd : decodeRune b rest = (b, 1) := by simp [decodeRune, hb]
    simp only [runesAux, hd]
    rw [ih (fun c hc => h c (List.mem_cons_of_mem _ hc))]

theorem runes_ascii (s : List Nat) (h : ∀ c ∈ s, c < 128) : runes s = s :=
  runesAux_ascii s h

theorem mapRunes_removeNewlines_ascii (s : List Nat) (h : ∀ c ∈ s, c < 128) :
    mapRunes removeNewlinesMapper s = s.filter notNewline := by
  induction s with
  | nil => rfl
  | cons b rest ih =>
    have hb : b < 128 := h b (List.mem_cons_self _ _)
    have ih2 := ih (fun c hc => h c (List.mem_cons_of_mem _ hc))
    simp only [mapRunes, ih2, List.filter_cons]
    by_cases hn : b = 13 ∨ b = 10
    · have h1 : removeNewlinesMapper (b : Int) = -1 := by
        rcases hn with rfl | rfl <;> simp [removeNewlinesMapper]
      have h2 : notNewline b = false := by
        rcases hn with rfl | rfl <;> simp [notNewline]
      simp [h1, h2]
    · have h13 : b ≠ 13 := fun e => hn (Or.inl e)
      have h10 : b ≠ 10 := fun e => hn (Or.inr e)
      have h1 : removeNewlinesMapper (b : Int) = (b : Int) := by
        have e13 : (b : Int) ≠ 13 := by omega
        have e10 : (b : Int) ≠ 10 := by omega
        simp [removeNewlinesMapper, e13, e10]
      have h2 : notNewline b = true := by simp [notNewline, h13, h10]
      have h3 : encodeRune b = [b] := by
        have : b ≤ 127 := by omega
        simp [encodeRune, this]
      simp [h1, h2, h3]

/-- On an ASCII text `Map(removeNewlinesMapper, s)` is `s` without its
`'\r'` and `'\n'` bytes. -/
theorem Map_removeNewlines_ascii (s : List Nat) (h : ∀ c ∈ s, c < 128) :
    Map removeNewlinesMapper s = s.filter notNewline := by
  rw [Map, runes_ascii s h, mapRunes_removeNewlines_ascii s h]

theorem encodeStd_ascii (c : Nat) (h : c ∈ encodeStd) : c < 128 := by
  revert c
  decide

theorem encodeStd_notNewline (c : Nat) (h : c ∈ encodeStd) : notNewline c = true := by
  revert c
  decide

theorem InsertsNewlines_filter (t t' : List Nat) (h : InsertsNewlines t t')
    (ht : ∀ c ∈ t, notNewline c = true) : t'.filter notNewline = t := by
  induction h with
  | done => rfl
  | keep c _ ih =>
    have hc : notNewline c = true := ht c (List.mem_cons_self _ _)
    rw [List.filter_cons_of_pos hc, ih (fun d hd => ht d (List.mem_cons_of_mem _ hd))]
  | cr _ ih =>
    have h13 : ¬ (notNewline 13 = true) := by decide
    rw [List.filter_cons_of_neg h13, ih ht]
  | lf _ ih =>
    have h10 : ¬ (notNewline 10 = true) := by decide
    rw [List.filter_cons_of_neg h10, ih ht]

theorem InsertsNewlines_ascii (t t' : List Nat) (h : InsertsNewlines t t')
    (ht : ∀ c ∈ t, c < 128) : ∀ c ∈ t', c < 128 := by
  induction h with
  | done => exact ht
  | keep c _ ih =>
    intro d hd
    rcases List.mem_cons.mp hd with rfl | hd
    · exact ht d (List.mem_cons_self _ _)
    · exact ih (fun e he => ht e (List.mem_cons_of_mem _ he)) d hd
  | cr _ ih =>
    intro d hd
    rcases List.mem_cons.mp hd with rfl | hd
    · decide
    · exact ih ht d hd
  | lf _ ih =>
    intro d hd
    rcases List.mem_cons.mp hd with rfl | hd
    · decide
    · exact ih ht d hd

/-! ## The decoder returns on ASCII texts -/

theorem subU64_eight (n : Nat) (h1 : 8 ≤ n) (h2 : n ≤ 20) : subU64 n 8 = n - 8 := by
  unfold subU64
  norm_num
  omega

theorem writeAt_lt (dst : List Nat) (i x : Nat) (h : i < dst.length) :
    writeAt dst i x = some (dst.set i x) := by
  simp [writeAt, h]

theorem decodeEmit_spec (fuel : Nat) (s : DecState) (hn1 : 13 ≤ s.n) (hn2 : s.n ≤ 20)
    (hpos : s.outpos + 2 ≤ s.dst.length) (hf : 2 ≤ fuel) :
    ∃ s1, decodeEmit fuel s = some s1 ∧ s1.n ≤ 7 ∧ s1.outpos ≤ s.outpos + 2 ∧
      s1.dst.length = s.dst.length := by
  obtain ⟨f, rfl⟩ : ∃ f, fuel = f + 2 := ⟨fuel - 2, by omega⟩
  have hs8 : subU64 s.n 8 = s.n - 8 := subU64_eight s.n (by omega) hn2
  simp only [decodeEmit]
  rw [writeAt_lt _ _ _ (by omega : s.outpos < s.dst.length)]
  simp only [hs8]
  by_cases h7 : s.n - 8 ≤ 7
  · rw [if_pos h7]
    exact ⟨_, rfl, h7, by simp, by simp⟩
  · rw [if_neg h7]
    have hs16 : subU64 (s.n - 8) 8 = s.n - 8 - 8 := by
      unfold subU64
      norm_num
      omega
    rw [writeAt_lt _ _ _ (by simp; omega)]
    simp only [hs16]
    rw [if_pos (by omega : s.n - 8 - 8 ≤ 7)]
    exact ⟨_, rfl, by simp; omega, by simp, by simp⟩

/-- The counter of `decodeEmit` never decides the result: from `len(dst) + 1`
turns on (less the bytes already stored), one more turn changes nothing. -/
theorem decodeEmit_fuel (fuel : Nat) (s : DecState)
    (h : s.dst.length + 1 ≤ fuel + s.outpos) :
    decodeEmit (fuel + 1) s = decodeEmit fuel s := by
  induction fuel generalizing s with
  | zero =>
    have hge : ¬ s.outpos < s.dst.length := by omega
    simp [decodeEmit, writeAt, hge]
  | succ f ih =>
    rw [decodeEmit, decodeEmit]
    by_cases hlt : s.outpos < s.dst.length
    · rw [writeAt_lt _ _ _ hlt]
      simp only
      split
      · rfl
      · exact ih _ (by simp only [List.length_set]; omega)
    · simp [writeAt, hlt]

theorem decodeChar_spec (decodemap : Nat → Nat) (s : DecState) (char k : Nat)
    (h : DecInv s (k + 1)) :
    ∃ s1, decodeChar decodemap s char = some s1 ∧ DecInv s1 k ∧
      s1.dst.length = s.dst.length := by
  obtain ⟨hn, hv⟩ := h
  rcases hv with ⟨hv, hroom⟩ | ⟨hv, hroom⟩
  · have hneg : s.v < 0 := by omega
    simp only [decodeChar, if_pos hneg]
    refine ⟨_, rfl, ⟨hn, Or.inr ⟨?_, ?_⟩⟩, rfl⟩
    · exact Int.ofNat_nonneg _
    · show s.outpos + k + 1 ≤ s.dst.length
      omega
  · have hneg : ¬ s.v < 0 := by omega
    simp only [decodeChar, if_neg hneg]
    generalize hc : (if char ∈ encodeStd then decodemap char else s.c) = c
    generalize hv1 : i64 (s.v + i64 ((c : Int) * 91)) = v1
    generalize hb1 : Int.lor s.b (i64 (v1 * 2 ^ s.n)) = b1
    generalize hn1 : (if Int.land v1 8191 > 88 then u64 (s.n + 13) else 14) = n1
    have hn13 : 13 ≤ n1 ∧ n1 ≤ 20 := by
      rw [← hn1]
      split
      · unfold u64
        norm_num
        omega
      · omega
    obtain ⟨s1, he, h7, hpos, hlen⟩ := decodeEmit_spec (s.dst.length + 1)
      { s with c := c, v := v1, b := b1, n := n1 } hn13.1 hn13.2
      (by show s.outpos + 2 ≤ s.dst.length; omega)
      (by show 2 ≤ s.dst.length + 1; omega)
    rw [he]
    refine ⟨_, rfl, ⟨h7, Or.inl ⟨rfl, ?_⟩⟩, hlen⟩
    show s1.outpos + k ≤ s1.dst.length
    rw [hlen]
    have hpos2 : s1.outpos ≤ s.outpos + 2 := hpos
    show s1.outpos + k ≤ s.dst.length
    omega

theorem decodeLoop_spec (decodemap : Nat → Nat) (rs : List Nat) (s : DecState)
    (h : DecInv s rs.length) :
    ∃ s1, decodeLoop decodemap s rs = some s1 ∧ DecInv s1 0 ∧
      s1.dst.length = s.dst.length := by
  induction rs generalizing s with
  | nil => exact ⟨s, rfl, h, rfl⟩
  | cons char rest ih =>
    obtain ⟨s1, h1, hinv, hlen⟩ := decodeChar_spec decodemap s char rest.length h
    obtain ⟨s2, h2, hinv2, hlen2⟩ := ih s1 hinv
    refine ⟨s2, ?_, hinv2, hlen2.trans hlen⟩
    simp only [decodeLoop, h1, h2]

theorem decodeRun_spec (enc : Encoding) (dst src : List Nat) (hs : ∀ c ∈ src, c < 128)
    (hroom : src.length ≤ dst.length) :
    ∃ s1, decodeRun enc dst src = some s1 ∧ s1.dst.length = dst.length := by
  have hinv : DecInv { v := -1, b := 0, c := 0, outpos := 0, n := 0, dst := dst } src.length :=
    ⟨Nat.zero_le _, Or.inl ⟨rfl, by simpa using hroom⟩⟩
  obtain ⟨s1, h1, ⟨_, hv⟩, hlen⟩ := decodeLoop_spec
    (buildDecodemap encodeStd 0 (fun _ => 0)) src _ hinv
  simp only [decodeRun, runes_ascii src hs, h1]
  rcases hv with ⟨hv, _⟩ | ⟨_, hroom1⟩
  · have : ¬ (i64 (s1.v + 1) > 0) := by
      rw [hv]
      decide
    rw [if_neg this]
    exact ⟨s1, rfl, hlen⟩
  · split
    · rw [writeAt_lt _ _ _ (by omega)]
      exact ⟨_, rfl, by simpa using hlen⟩
    · exact ⟨s1, rfl, hlen⟩

/-- On an ASCII text `DecodeString` returns (it does not panic): the error
is nil and the slice has twice as many bytes as the text has bytes other
than `'\r'` and `'\n'`. -/
theorem DecodeString_ascii (enc : Encoding) (s : List Nat) (hs : ∀ c ∈ s, c < 128) :
    ∃ out, enc.DecodeString s = some (out, none) ∧
      out.length = 2 * (s.filter notNewline).length := by
  have hf : ∀ c ∈ s.filter notNewline, c < 128 :=
    fun c hc => hs c (List.mem_of_mem_filter hc)
  have hmap : Map removeNewlinesMapper s = s.filter notNewline :=
    Map_removeNewlines_ascii s hs
  have hmap2 : Map removeNewlinesMapper (s.filter notNewline) = s.filter notNewline := by
    rw [Map_removeNewlines_ascii _ hf, List.filter_filter]
    simp
  obtain ⟨s1, h1, hlen⟩ := decodeRun_spec enc
    (List.replicate (enc.DecodedLen (s.filter notNewline).length) 0) (s.filter notNewline) hf
    (by simp [Encoding.DecodedLen]; omega)
  refine ⟨s1.dst, ?_, ?_⟩
  · simp only [Encoding.DecodeString, Encoding.Decode, Encoding.decode, hmap, hmap2, h1]
    rw [List.length_replicate] at hlen
    simp [hlen]
  · rw [hlen]
    simp [Encoding.DecodedLen]
    omega

/-! ## Whitespace invariance -/

/-- C4: for a text `t` over the standard alphabet and a text `t'` obtained
from `t` by inserting `'\r'` and `'\n'` bytes at arbitrary positions,
`StdEncoding.DecodeString` returns on both, with the same bytes and the same
error. -/
theorem DecodeString_whitespace_invariant (t t' : List Nat)
    (ht : ∀ c ∈ t, c ∈ encodeStd) (h : InsertsNewlines t t') :
    ∃ r, StdEncoding.DecodeString t = some r ∧ StdEncoding.DecodeString t' = some r := by
  have hascii : ∀ c ∈ t, c < 128 := fun c hc => encodeStd_ascii c (ht c hc)
  have hascii2 : ∀ c ∈ t', c < 128 := InsertsNewlines_ascii t t' h hascii
  have hnn : ∀ c ∈ t, notNewline c = true := fun c hc => encodeStd_notNewline c (ht c hc)
  have hmap : Map removeNewlinesMapper t' = Map removeNewlinesMapper t := by
    rw [Map_removeNewlines_ascii t' hascii2, Map_removeNewlines_ascii t hascii,
      InsertsNewlines_filter t t' h hnn, List.filter_eq_self.mpr hnn]
  obtain ⟨out, hout, _⟩ := DecodeString_ascii StdEncoding t hascii
  refine ⟨(out, none), hout, ?_⟩
  rw [← hout]
  simp only [Encoding.DecodeString, hmap]

/-- The theorem `DecodeString_whitespace_invariant` at the text `"AB"` and
the text `"A\r\nB\n"`. -/
theorem DecodeString_whitespace_invariant_witness :
    (∀ c ∈ [65, 66], c ∈ encodeStd) ∧ InsertsNewlines [65, 66] [65, 13, 10, 66, 10] ∧
    ∃ r, StdEncoding.DecodeString [65, 66] = some r ∧
      StdEncoding.DecodeString [65, 13, 10, 66, 10] = some r :=
  have hins : InsertsNewlines [65, 66] [65, 13, 10, 66, 10] :=
    .keep 65 (.cr (.lf (.keep 66 (.lf .done))))
  ⟨by decide, hins, DecodeString_whitespace_invariant [65, 66] [65, 13, 10, 66, 10]
    (by decide) hins⟩

/-! ## The stream adapters store into a nil slice -/

theorem writeAt_nil (i x : Nat) : writeAt [] i x = none := by
  simp [writeAt]

theorem encodePair_nil (enc : Encoding) (s : EncState) (v b n : Nat) (h : s.dst = []) :
    encodePair enc s v b n = none := by
  unfold encodePair
  rw [h]
  cases enc.encode[v % 91]? <;> simp [writeAt_nil]

/-- Into a nil destination `Encode` panics on every non-empty source. -/
theorem Encode_nil_dst (enc : Encoding) (p : List Nat) (hp : p ≠ []) :
    enc.Encode [] p = none := by
  cases p with
  | nil => exact absurd rfl hp
  | cons x rest =>
    have h8 : ¬ (u64 (0 + 8) > 13) := by decide
    have h16 : u64 (u64 (0 + 8) + 8) > 13 := by decide
    cases rest with
    | nil =>
      simp only [Encoding.Encode, encodeLoop, encodeByte, if_neg h8, encodeTail]
      cases enc.encode[(0 ||| u64 ((u64 x &&& 255) <<< 0)) % 91]? <;>
        simp [writeAt_nil, u64]
    | cons y rest2 =>
      have hlen : ¬ ((x :: y :: rest2).length = 0) := by simp
      simp only [Encoding.Encode, if_neg hlen, encodeLoop, encodeByte, if_neg h8, if_pos h16]
      rw [encodePair_nil _ _ _ _ _ rfl, encodePair_nil _ _ _ _ _ rfl]
      simp

/-- The writer of `NewEncoder` panics on every non-empty `Write`, and on an
empty one returns `n = 0` and a nil error with the sink untouched. -/
theorem encoder_Write_spec (enc : Encoding) (w p : List Nat) :
    (p ≠ [] → (NewEncoder enc w).Write p = none) ∧
    (NewEncoder enc w).Write [] = some (NewEncoder enc w, 0, none) := by
  constructor
  · intro hp
    simp [encoder.Write, NewEncoder, Encode_nil_dst enc p hp]
  · simp [encoder.Write, NewEncoder, Encoding.Encode]

theorem buildDecodemap_lt (l : List Nat) (i : Nat) (m : Nat → Nat) (B : Nat)
    (hm : ∀ k, m k < B) (hl : i + l.length ≤ B) (k : Nat) :
    buildDecodemap l i m k < B := by
  induction l generalizing i m with
  | nil => exact hm k
  | cons c rest ih =>
    simp only [buildDecodemap]
    simp only [List.length_cons] at hl
    apply ih
    · intro j
      split
      · omega
      · exact hm j
    · omega

theorem runes_cons_ne_nil (b : Nat) (rest : List Nat) : runes (b :: rest) ≠ [] := by
  simp [runes, runesAux]

/-- Into a nil destination `decode` panics on every non-empty source. -/
theorem decodeRun_nil_dst (enc : Encoding) (src : List Nat) (hs : src ≠ []) :
    decodeRun enc [] src = none := by
  obtain ⟨b, rest, rfl⟩ := List.exists_cons_of_ne_nil hs
  have hr := runes_cons_ne_nil b rest
  obtain ⟨r0, rs, hrs⟩ := List.exists_cons_of_ne_nil hr
  have hneg : ((-1 : Int) < 0) := by decide
  have hlt : (if r0 ∈ encodeStd then
      buildDecodemap encodeStd 0 (fun _ => 0) r0 else 0) < 91 := by
    split
    · exact buildDecodemap_lt encodeStd 0 (fun _ => 0) 91 (fun _ => Nat.zero_lt_succ _)
        (by decide) r0
    · decide
  unfold decodeRun
  rw [hrs]
  simp only [decodeLoop, decodeChar, if_pos hneg]
  generalize (if r0 ∈ encodeStd then
      buildDecodemap encodeStd 0 (fun _ => 0) r0 else 0) = c at hlt
  cases rs with
  | nil =>
    have hpos : i64 ((c : Int) + 1) > 0 := by
      unfold i64
      omega
    simp only [decodeLoop, writeAt_nil, if_pos hpos]
  | cons r1 rs2 =>
    have hnn : ¬ ((c : Int) < 0) := by omega
    simp only [decodeLoop, decodeChar, if_neg hnn, List.length_nil, Nat.zero_add, decodeEmit,
      writeAt_nil]

/-- The reader of `NewDecoder` panics whenever the caller's buffer holds a
byte that the newline mapper keeps, whatever the source holds; it never
reads the source. -/
theorem decoder_Read_spec (enc : Encoding) (r : Reader) (p : List Nat)
    (hp : Map removeNewlinesMapper p ≠ []) : (NewDecoder enc r).Read p = none := by
  simp only [decoder.Read, NewDecoder, Encoding.Decode, Encoding.decode,
    decodeRun_nil_dst enc _ hp]
  simp

/-! ## Behaviour at concrete inputs -/

/-- C1: the round trip fails on the one-byte input `[0x41]`:
`EncodeToString` yields the two bytes `"A\x00"`, and `DecodeString` of that
text yields four zero bytes (with a nil error), not `[0x41]`. -/
theorem roundtrip_one_byte :
    StdEncoding.EncodeToString [0x41] = some [65, 0] ∧
    StdEncoding.DecodeString [65, 0] = some ([0, 0, 0, 0], none) := by
  constructor <;> decide

/-- C2: `EncodeToString` of the one-byte input `[0x01]` is the two bytes
`"A\x00"`; its second byte, the zero byte, is not a symbol of the alphabet. -/
theorem EncodeToString_emits_zero_byte :
    StdEncoding.EncodeToString [0x01] = some [65, 0] ∧ 0 ∉ StdEncoding.encode := by
  constructor <;> decide

/-- C3: the text `"\x00"`, whose only byte is neither a line break nor a
symbol of the alphabet, is decoded to two zero bytes with a nil error. -/
theorem DecodeString_accepts_corrupt_input :
    0 ∉ StdEncoding.encode ∧ StdEncoding.DecodeString [0] = some ([0, 0], none) := by
  constructor <;> decide

/-- C5: on the text `"AA"` and a destination of four bytes, `decode` stores
one byte (`outpos` ends at 1), yet `Decode` returns `n = 4`, the length of
the destination, and `DecodeString` returns all four bytes of its buffer. -/
theorem Decode_returns_buffer_length :
    (decodeRun StdEncoding [0, 0, 0, 0] (Map removeNewlinesMapper [65, 65])).map
        (fun s => s.outpos) = some 1 ∧
    (StdEncoding.Decode [0, 0, 0, 0] [65, 65]).map (fun r => r.num) = some 4 ∧
    StdEncoding.DecodeString [65, 65] = some ([0, 0, 0, 0], none) := by
  refine ⟨by decide, by decide, by decide⟩

set_option maxRecDepth 8192 in
/-- C6: under the encoding built from the reversed standard alphabet, whose
91 symbols are pairwise distinct ASCII bytes and whose symbol of index 0 is
`'"'` (34), the text of twice that symbol (i = j = 0)
decodes to first byte 88, the value `(90 + 91 * 90) mod 256` of the symbol's
index in the standard alphabet, not `(0 + 91 * 0) mod 256 = 0`. -/
theorem decode_ignores_custom_alphabet :
    encodeStd.reverse.length = 91 ∧ encodeStd.reverse.Nodup ∧
    encodeStd.reverse.all (fun c => decide (c < 128)) = true ∧
    (NewEncoding encodeStd.reverse).encode[0]? = some 34 ∧
    (NewEncoding encodeStd.reverse).decodeMap[34]? = some 0 ∧
    (NewEncoding encodeStd.reverse).DecodeString [34, 34] = some ([88, 0, 0, 0], none) := by
  refine ⟨by decide, by decide, by decide, by decide, by decide, by decide⟩

/-- C9: writing the one byte `[0x41]` to the writer that `NewEncoder` returns
panics (the output slice `out` is nil, and `Encode` stores into it), so
nothing reaches the sink. -/
theorem encoder_Write_panics :
    (NewEncoder StdEncoding []).Write [0x41] = none := by
  decide

/-- C10: with the source holding the text `"AA"`, reading into a buffer of
four bytes from the reader that `NewDecoder` returns panics: `Read` decodes
the caller's buffer into the nil slice `out` and never reads the source. -/
theorem decoder_Read_panics :
    (NewDecoder StdEncoding { script := [([65, 65], none)] }).Read [0, 0, 0, 0] = none := by
  decide

/-- C11: on the one-byte input `[0xFF]` the loop leaves `n = 8`, `b = 255`,
so the tail is to emit `alphabet[255 % 91] = '/'` (47) and then
`alphabet[255 / 91] = 'C'` (67) at the position after it; `Encode` stores
both at index 0, and leaves `'C'` there and the byte after it untouched. -/
theorem Encode_tail_overwrites :
    encodeLoop StdEncoding { n := 0, b := 0, v := 0, pos := 0, dst := [0, 0] } [0xFF] =
      some { n := 8, b := 255, v := 0, pos := 0, dst := [0, 0] } ∧
    StdEncoding.encode[255 % 91]? = some 47 ∧
    StdEncoding.encode[255 / 91]? = some 67 ∧
    StdEncoding.Encode [0, 0] [0xFF] = some [67, 0] := by
  refine ⟨by decide, by decide, by decide, by decide⟩

/-- C12: after the text `"~AA"` the decoder holds 5 valid bits and the
pending first symbol `'A'` of a pair (one byte stored). The next symbol `'A'`
completes a pair with `v = 0`: the count becomes 14, not 5 + 14 = 19, one
byte is stored, not two, and 6 bits are left. -/
theorem decode_pair_resets_bit_count :
    decodeLoop (buildDecodemap encodeStd 0 (fun _ => 0))
        { v := -1, b := 0, c := 0, outpos := 0, n := 0, dst := [0, 0, 0, 0, 0, 0, 0, 0] }
        [126, 65, 65] =
      some { v := 0, b := 0, c := 0, outpos := 1, n := 5, dst := [89, 0, 0, 0, 0, 0, 0, 0] } ∧
    decodeChar (buildDecodemap encodeStd 0 (fun _ => 0))
        { v := 0, b := 0, c := 0, outpos := 1, n := 5, dst := [89, 0, 0, 0, 0, 0, 0, 0] } 65 =
      some { v := -1, b := 0, c := 0, outpos := 2, n := 6, dst := [89, 0, 0, 0, 0, 0, 0, 0] } := by
  refine ⟨by decide, by decide⟩

/-! ## Bounds of the decoder -/

/-- On an ASCII text and a destination with at least one byte per byte of
the text, `decode` returns, and has stored no more bytes than the destination
holds. -/
theorem decodeRun_bound (enc : Encoding) (dst src : List Nat) (hs : ∀ c ∈ src, c < 128)
    (hroom : src.length ≤ dst.length) :
    ∃ s1, decodeRun enc dst src = some s1 ∧ s1.dst.length = dst.length ∧
      s1.outpos ≤ dst.length := by
  have hinv : DecInv { v := -1, b := 0, c := 0, outpos := 0, n := 0, dst := dst } src.length :=
    ⟨Nat.zero_le _, Or.inl ⟨rfl, by simpa using hroom⟩⟩
  obtain ⟨s1, h1, ⟨_, hv⟩, hlen⟩ := decodeLoop_spec
    (buildDecodemap encodeStd 0 (fun _ => 0)) src _ hinv
  have hlen1 : s1.dst.length = dst.length := hlen
  simp only [decodeRun, runes_ascii src hs, h1]
  rcases hv with ⟨hv, hroom1⟩ | ⟨_, hroom1⟩
  · have : ¬ (i64 (s1.v + 1) > 0) := by
      rw [hv]
      decide
    rw [if_neg this]
    exact ⟨s1, rfl, hlen1, by omega⟩
  · split
    · rw [writeAt_lt _ _ _ (by omega)]
      exact ⟨_, rfl, by simpa using hlen1, by show s1.outpos + 1 ≤ dst.length; omega⟩
    · exact ⟨s1, rfl, hlen1, by omega⟩

/-- C17: for an ASCII text `s`, `decode` into a buffer of
`DecodedLen(len(s)) = 2 * len(s)` bytes returns without an index out of
range, having stored at most `DecodedLen(len(s))` bytes, and `DecodeString`
returns on `s`. -/
theorem decode_fits_DecodedLen (enc : Encoding) (s : List Nat) (hs : ∀ c ∈ s, c < 128) :
    enc.DecodedLen s.length = 2 * s.length ∧
    (∃ st, decodeRun enc (List.replicate (enc.DecodedLen s.length) 0) s = some st ∧
      st.outpos ≤ enc.DecodedLen s.length) ∧
    (∃ r, enc.DecodeString s = some r) := by
  refine ⟨by simp [Encoding.DecodedLen, Nat.mul_comm], ?_, ?_⟩
  · obtain ⟨st, h1, _, hpos⟩ := decodeRun_bound enc
      (List.replicate (enc.DecodedLen s.length) 0) s hs
      (by rw [List.length_replicate]; simp [Encoding.DecodedLen]; omega)
    rw [List.length_replicate] at hpos
    exact ⟨st, h1, hpos⟩
  · obtain ⟨out, hout, _⟩ := DecodeString_ascii enc s hs
    exact ⟨_, hout⟩

/-- The theorem `decode_fits_DecodedLen` at the text `"AB\x00"`. -/
theorem decode_fits_DecodedLen_witness :
    (∀ c ∈ [65, 66, 0], c < 128) ∧
    StdEncoding.DecodedLen 3 = 6 ∧
    (∃ st, decodeRun StdEncoding (List.replicate 6 0) [65, 66, 0] = some st ∧ st.outpos ≤ 6) ∧
    (∃ r, StdEncoding.DecodeString [65, 66, 0] = some r) :=
  ⟨by decide, decode_fits_DecodedLen StdEncoding [65, 66, 0] (by decide)⟩

/-- C20: for every ASCII text `s`, whether or not its bytes belong to the
alphabet, `DecodeString(s)` returns a nil error and a slice of exactly
`2 * k` bytes, `k` being the number of bytes of `s` other than `'\r'` and
`'\n'`. -/
theorem DecodeString_nil_error_and_length (enc : Encoding) (s : List Nat)
    (hs : ∀ c ∈ s, c < 128) :
    ∃ out, enc.DecodeString s = some (out, none) ∧
      out.length = 2 * (s.filter (fun c => !(c == 13 || c == 10))).length := by
  obtain ⟨out, hout, hlen⟩ := DecodeString_ascii enc s hs
  exact ⟨out, hout, hlen⟩

/-- The theorem `DecodeString_nil_error_and_length` at the text `"A\r\n\x00"`,
of two bytes other than line breaks. -/
theorem DecodeString_nil_error_and_length_witness :
    (∀ c ∈ [65, 13, 10, 0], c < 128) ∧
    ∃ out, StdEncoding.DecodeString [65, 13, 10, 0] = some (out, none) ∧
      out.length = 2 * ([65, 13, 10, 0].filter (fun c => !(c == 13 || c == 10))).length :=
  ⟨by decide, DecodeString_nil_error_and_length StdEncoding [65, 13, 10, 0] (by decide)⟩

/-! ## Invariants of the encoder -/

theorem merge_lt (b x n : Nat) (hb : b < 2 ^ n) :
    b ||| u64 ((u64 x &&& 255) <<< n) < 2 ^ (n + 8) := by
  have h255 : u64 x &&& 255 < 2 ^ 8 := Nat.and_lt_two_pow _ (by norm_num)
  have hpos : 0 < 2 ^ n := Nat.two_pow_pos n
  have hsh : (u64 x &&& 255) <<< n < 2 ^ (n + 8) := by
    rw [Nat.shiftLeft_eq, pow_add, Nat.mul_comm]
    exact Nat.mul_lt_mul_of_pos_left h255 hpos
  have hu : u64 ((u64 x &&& 255) <<< n) < 2 ^ (n + 8) :=
    lt_of_le_of_lt (Nat.mod_le _ _) hsh
  have hb2 : b < 2 ^ (n + 8) :=
    lt_of_lt_of_le hb (Nat.pow_le_pow_right (by norm_num) (by omega))
  exact Nat.or_lt_two_pow hb2 hu

theorem shift_in_register (x n : Nat) (hn : n ≤ 13) :
    u64 ((u64 x &&& 255) <<< n) = (u64 x &&& 255) <<< n := by
  have h255 : u64 x &&& 255 < 2 ^ 8 := Nat.and_lt_two_pow _ (by norm_num)
  have hpos : 0 < 2 ^ n := Nat.two_pow_pos n
  have hsh : (u64 x &&& 255) <<< n < 2 ^ (n + 8) := by
    rw [Nat.shiftLeft_eq, pow_add, Nat.mul_comm]
    exact Nat.mul_lt_mul_of_pos_left h255 hpos
  have hle : 2 ^ (n + 8) ≤ 2 ^ 64 := Nat.pow_le_pow_right (by norm_num) (by omega)
  exact Nat.mod_eq_of_lt (lt_of_lt_of_le hsh hle)

theorem shiftRight_lt (m n w : Nat) (hm : m < 2 ^ n) (hw : w ≤ n) :
    m >>> w < 2 ^ (n - w) := by
  rw [Nat.shiftRight_eq_div_pow]
  apply Nat.div_lt_of_lt_mul
  rw [← pow_add]
  have : w + (n - w) = n := by omega
  rw [this]
  exact hm

theorem u64_small (n : Nat) (h : n ≤ 21) : u64 n = n := by
  unfold u64
  apply Nat.mod_eq_of_lt
  have : (2 : Nat) ^ 64 = 18446744073709551616 := by norm_num
  omega

theorem subU64_small (a w : Nat) (hw : w ≤ a) (ha : a ≤ 21) : subU64 a w = a - w := by
  unfold subU64
  have h64 : (2 : Nat) ^ 64 = 18446744073709551616 := by norm_num
  have hwm : w % 2 ^ 64 = w := Nat.mod_eq_of_lt (by omega)
  rw [hwm]
  have : a + 2 ^ 64 - w = (a - w) + 2 ^ 64 := by omega
  rw [this, Nat.add_mod_right]
  exact Nat.mod_eq_of_lt (by omega)

/-- What a returning `encodePair` has done: both symbols were in range of the
alphabet and both stores in range of the destination. -/
theorem encodePair_eq_some (enc : Encoding) (s s1 : EncState) (v b n : Nat) :
    encodePair enc s v b n = some s1 ↔
      ∃ c0 c1, enc.encode[v % 91]? = some c0 ∧ enc.encode[v / 91]? = some c1 ∧
        s.pos + 1 < s.dst.length ∧
        s1 = { n := n, b := b, v := v, pos := s.pos + 1 + 1,
               dst := (s.dst.set s.pos c0).set (s.pos + 1) c1 } := by
  unfold encodePair
  constructor
  · intro h
    cases h0 : enc.encode[v % 91]? with
    | none => simp [h0] at h
    | some c0 =>
      cases h1 : enc.encode[v / 91]? with
      | none =>
        simp only [h0, h1] at h
        by_cases hp : s.pos < s.dst.length <;> simp [writeAt, hp] at h
      | some c1 =>
        by_cases hp : s.pos + 1 < s.dst.length
        · have hp0 : s.pos < s.dst.length := by omega
          simp [h0, h1, writeAt, hp, hp0] at h
          exact ⟨c0, c1, rfl, rfl, hp, h.symm⟩
        · by_cases hp0 : s.pos < s.dst.length <;> simp [h0, h1, writeAt, hp, hp0] at h
  · rintro ⟨c0, c1, h0, h1, hp, rfl⟩
    have hp0 : s.pos < s.dst.length := by omega
    simp [h0, h1, writeAt, hp, hp0]

theorem and_8191 (m : Nat) : m &&& 8191 = m % 8192 :=
  Nat.and_pow_two_sub_one_eq_mod m 13

theorem and_16383 (m : Nat) : m &&& 16383 = m % 16384 :=
  Nat.and_pow_two_sub_one_eq_mod m 14

theorem getElem?_lt_91 (enc : Encoding) (hlen : enc.encode.length = 91) (i : Nat)
    (hi : i < 91) : ∃ c, enc.encode[i]? = some c :=
  ⟨enc.encode[i], List.getElem?_eq_getElem (by omega)⟩

/-- One input byte keeps the invariant of `Encode`, and the step returns. -/
theorem encodeByte_spec (enc : Encoding) (hlen : enc.encode.length = 91) (s : EncState)
    (x k : Nat) (dst0 : List Nat) (h : EncInv s k dst0) (hroom : 2 * (k + 1) ≤ dst0.length) :
    ∃ s1, encodeByte enc s x = some s1 ∧ EncInv s1 (k + 1) dst0 := by
  obtain ⟨n, b, v, pos, dst⟩ := s
  obtain ⟨hn, hb, hv, hpos, hL, hz⟩ := h
  simp only at hn hb hv hpos hL hz
  have hm := merge_lt b x n hb
  have hu := u64_small (n + 8) (by omega)
  simp only [encodeByte, hu]
  generalize b ||| u64 ((u64 x &&& 255) <<< n) = m at hm
  by_cases h13 : n + 8 > 13
  · rw [if_pos h13]
    have hp1 : pos + 1 < dst.length := by omega
    rw [and_8191, and_16383]
    by_cases h88 : m % 8192 > 88
    · rw [if_pos h88]
      obtain ⟨c0, h0⟩ := getElem?_lt_91 enc hlen (m % 8192 % 91) (Nat.mod_lt _ (by norm_num))
      obtain ⟨c1, h1⟩ := getElem?_lt_91 enc hlen (m % 8192 / 91) (by omega)
      refine ⟨_, (encodePair_eq_some enc _ _ _ _ _).mpr ⟨c0, c1, h0, h1, hp1, rfl⟩, ?_⟩
      have hs := subU64_small (n + 8) 13 (by omega) (by omega)
      have hb1 := shiftRight_lt m (n + 8) 13 hm (by omega)
      refine ⟨?_, ?_, ?_, ?_, ?_, ?_⟩
      · show subU64 (n + 8) 13 ≤ 13
        omega
      · show m >>> 13 < 2 ^ subU64 (n + 8) 13
        rw [hs]
        exact hb1
      · show m % 8192 < 8281
        omega
      · show 13 * (pos + 1 + 1) + 2 * subU64 (n + 8) 13 ≤ 16 * (k + 1)
        omega
      · show ((dst.set pos c0).set (pos + 1) c1).length = dst0.length
        simp [hL]
      · intro i hi
        show ((dst.set pos c0).set (pos + 1) c1)[i]? = dst0[i]?
        have hi2 : pos + 1 + 1 ≤ i := hi
        rw [List.getElem?_set_ne (by omega), List.getElem?_set_ne (by omega)]
        exact hz i (by omega)
    · rw [if_neg h88]
      have hv14 : m % 16384 < 8281 := by omega
      obtain ⟨c0, h0⟩ := getElem?_lt_91 enc hlen (m % 16384 % 91) (Nat.mod_lt _ (by norm_num))
      obtain ⟨c1, h1⟩ := getElem?_lt_91 enc hlen (m % 16384 / 91) (by omega)
      refine ⟨_, (encodePair_eq_some enc _ _ _ _ _).mpr ⟨c0, c1, h0, h1, hp1, rfl⟩, ?_⟩
      have hs := subU64_small (n + 8) 14 (by omega) (by omega)
      have hb1 := shiftRight_lt m (n + 8) 14 hm (by omega)
      refine ⟨?_, ?_, ?_, ?_, ?_, ?_⟩
      · show subU64 (n + 8) 14 ≤ 13
        omega
      · show m >>> 14 < 2 ^ subU64 (n + 8) 14
        rw [hs]
        exact hb1
      · exact hv14
      · show 13 * (pos + 1 + 1) + 2 * subU64 (n + 8) 14 ≤ 16 * (k + 1)
        omega
      · show ((dst.set pos c0).set (pos + 1) c1).length = dst0.length
        simp [hL]
      · intro i hi
        show ((dst.set pos c0).set (pos + 1) c1)[i]? = dst0[i]?
        have hi2 : pos + 1 + 1 ≤ i := hi
        rw [List.getElem?_set_ne (by omega), List.getElem?_set_ne (by omega)]
        exact hz i (by omega)
  · rw [if_neg h13]
    refine ⟨_, rfl, ?_, ?_, hv, ?_, hL, hz⟩
    · show n + 8 ≤ 13
      omega
    · exact hm
    · show 13 * pos + 2 * (n + 8) ≤ 16 * (k + 1)
      omega

/-- The loop of `Encode` keeps the invariant, and returns. -/
theorem encodeLoop_spec (enc : Encoding) (hlen : enc.encode.length = 91) (src : List Nat)
    (s : EncState) (k : Nat) (dst0 : List Nat) (h : EncInv s k dst0)
    (hroom : 2 * (k + src.length) ≤ dst0.length) :
    ∃ s1, encodeLoop enc s src = some s1 ∧ EncInv s1 (k + src.length) dst0 := by
  induction src generalizing s k with
  | nil => exact ⟨s, rfl, h⟩
  | cons x rest ih =>
    simp only [List.length_cons] at hroom
    obtain ⟨s1, h1, hinv⟩ := encodeByte_spec enc hlen s x k dst0 h (by omega)
    obtain ⟨s2, h2, hinv2⟩ := ih s1 (k + 1) hinv (by omega)
    refine ⟨s2, ?_, ?_⟩
    · simp only [encodeLoop, h1, h2]
    · have : k + (rest.length + 1) = k + 1 + rest.length := by omega
      rw [List.length_cons, this]
      exact hinv2

/-- The start of `Encode` satisfies the invariant. -/
theorem EncInv_init (dst : List Nat) :
    EncInv { n := 0, b := 0, v := 0, pos := 0, dst := dst } 0 dst :=
  ⟨Nat.zero_le _, Nat.one_pos, by show 0 < 8281; decide, Nat.le_refl _, rfl,
    fun _ _ => rfl⟩

/-- The run of the loop of `Encode` from its start over the whole source. -/
theorem encodeLoop_run (enc : Encoding) (hlen : enc.encode.length = 91) (src dst : List Nat)
    (hroom : 2 * src.length ≤ dst.length) :
    ∃ s, encodeLoop enc { n := 0, b := 0, v := 0, pos := 0, dst := dst } src = some s ∧
      EncInv s src.length dst := by
  obtain ⟨s, h1, hinv⟩ := encodeLoop_spec enc hlen src _ 0 dst (EncInv_init dst)
    (by omega)
  rw [Nat.zero_add] at hinv
  exact ⟨s, h1, hinv⟩

/-- The tail of `Encode` returns, and stores at index `pos` only. -/
theorem encodeTail_spec (enc : Encoding) (hlen : enc.encode.length = 91) (s : EncState)
    (k : Nat) (dst0 : List Nat) (h : EncInv s k dst0) (hroom : 2 * k ≤ dst0.length) :
    ∃ out, encodeTail enc s = some out ∧ out.length = dst0.length ∧
      (0 < s.n → s.pos < 2 * k) ∧
      ∀ i, s.pos + (if s.n > 0 then 1 else 0) ≤ i → out[i]? = dst0[i]? := by
  obtain ⟨n, b, v, pos, dst⟩ := s
  obtain ⟨hn, hb, hv, hpos, hL, hz⟩ := h
  simp only at hn hb hv hpos hL hz
  simp only [encodeTail]
  by_cases h0 : n > 0
  · have hb13 : b < 8192 :=
      lt_of_lt_of_le hb (Nat.pow_le_pow_right (by norm_num) hn)
    have hp : pos < dst.length := by omega
    obtain ⟨c0, hc0⟩ := getElem?_lt_91 enc hlen (b % 91) (Nat.mod_lt _ (by norm_num))
    obtain ⟨c1, hc1⟩ := getElem?_lt_91 enc hlen (b / 91) (by omega)
    simp only [if_pos h0]
    by_cases hc : n > 7 ∨ b > 90
    · refine ⟨(dst.set pos c0).set pos c1, ?_, by simp [hL], fun _ => by omega, ?_⟩
      · simp [hc0, hc1, writeAt, hp, hc]
      · intro i hi
        rw [List.getElem?_set_ne (by omega), List.getElem?_set_ne (by omega)]
        exact hz i (by omega)
    · refine ⟨dst.set pos c0, ?_, by simp [hL], fun _ => by omega, ?_⟩
      · simp [hc0, writeAt, hp, hc]
      · intro i hi
        rw [List.getElem?_set_ne (by omega)]
        exact hz i (by omega)
  · simp only [if_neg h0]
    exact ⟨dst, rfl, hL, fun h => absurd h h0, fun i hi => hz i (by omega)⟩

/-- With a 91-symbol alphabet and a destination of at least `2 * len(src)`
bytes `Encode` returns: it leaves the length of the destination and every
byte after the last symbol stored as they were. -/
theorem Encode_spec (enc : Encoding) (hlen : enc.encode.length = 91) (src dst : List Nat)
    (hroom : 2 * src.length ≤ dst.length) :
    ∃ s out, encodeLoop enc { n := 0, b := 0, v := 0, pos := 0, dst := dst } src = some s ∧
      EncInv s src.length dst ∧
      enc.Encode dst src = some out ∧ out.length = dst.length ∧
      (0 < s.n → s.pos < 2 * src.length) ∧
      ∀ i, s.pos + (if s.n > 0 then 1 else 0) ≤ i → out[i]? = dst[i]? := by
  obtain ⟨s, h1, hinv⟩ := encodeLoop_run enc hlen src dst hroom
  by_cases he : src.length = 0
  · have hnil : src = [] := List.length_eq_zero.mp he
    subst hnil
    simp only [encodeLoop, Option.some.injEq] at h1
    subst h1
    exact ⟨_, dst, rfl, hinv, by simp [Encoding.Encode], rfl, fun h => absurd h (Nat.lt_irrefl 0),
      fun _ _ => rfl⟩
  · obtain ⟨out, hout, hlen2, hp, hz⟩ := encodeTail_spec enc hlen s src.length dst hinv hroom
    refine ⟨s, out, h1, hinv, ?_, hlen2, hp, hz⟩
    simp only [Encoding.Encode, if_neg he, h1, hout]

/-! ## A digit pair and the decoder's reading of it -/

theorem i64_small (x : Int) (h0 : 0 ≤ x) (h1 : x < 2 ^ 62) : i64 x = x := by
  unfold i64
  have e62 : (2 : Int) ^ 62 = 4611686018427387904 := by norm_num
  have e63 : (2 : Int) ^ 63 = 9223372036854775808 := by norm_num
  have e64 : (2 : Int) ^ 64 = 18446744073709551616 := by norm_num
  rw [e62] at h1
  rw [e63, e64]
  omega

theorem land_cast (v : Nat) : Int.land (v : Int) 8191 = ((v % 8192 : Nat) : Int) := by
  have h : Int.land (v : Int) 8191 = ((v &&& 8191 : Nat) : Int) := rfl
  rw [h, and_8191]

/-- The decoder's reading of the two digits of a value below `2^14`: the
recombination `first + second * 91` gives the value back. -/
theorem recombine (v : Nat) (hv : v < 2 ^ 14) :
    i64 (((v % 91 : Nat) : Int) + i64 (((v / 91 : Nat) : Int) * 91)) = (v : Int) := by
  have hv2 : v < 16384 := hv
  have e62 : (2 : Int) ^ 62 = 4611686018427387904 := by norm_num
  rw [i64_small (((v / 91 : Nat) : Int) * 91) (by omega) (by rw [e62]; omega)]
  rw [i64_small _ (by omega) (by rw [e62]; omega)]
  omega

theorem buildDecodemap_not_mem (l : List Nat) (i : Nat) (m : Nat → Nat) (k : Nat)
    (hk : k ∉ l) : buildDecodemap l i m k = m k := by
  induction l generalizing i m with
  | nil => rfl
  | cons c rest ih =>
    have hc : k ≠ c := fun h => hk (h ▸ List.mem_cons_self _ _)
    have hr : k ∉ rest := fun h => hk (List.mem_cons_of_mem _ h)
    simp only [buildDecodemap]
    rw [ih _ _ hr, if_neg hc]

theorem buildDecodemap_mem (l : List Nat) (i : Nat) (m : Nat → Nat) (j k : Nat)
    (hnd : l.Nodup) (hj : l[j]? = some k) : buildDecodemap l i m k = i + j := by
  induction l generalizing i m j with
  | nil => simp at hj
  | cons c rest ih =>
    have hnd2 := List.nodup_cons.mp hnd
    simp only [buildDecodemap]
    cases j with
    | zero =>
      simp only [List.getElem?_cons_zero, Option.some.injEq] at hj
      subst hj
      rw [buildDecodemap_not_mem _ _ _ _ hnd2.1]
      simp
    | succ j1 =>
      simp only [List.getElem?_cons_succ] at hj
      rw [ih (i + 1) _ j1 hnd2.2 hj]
      omega

/-- The lookup that `decode` builds from `encodeStd` resolves the symbol of
index `i` of the standard alphabet to `i`. -/
theorem encodeStd_resolves (i c : Nat) (h : encodeStd[i]? = some c) :
    c ∈ encodeStd ∧ buildDecodemap encodeStd 0 (fun _ => 0) c = i := by
  refine ⟨?_, ?_⟩
  · obtain ⟨hi, hc⟩ := List.getElem?_eq_some.mp h
    rw [← hc]
    exact List.getElem_mem hi
  · rw [buildDecodemap_mem encodeStd 0 _ i c (by decide) h, Nat.zero_add]

theorem fresh_width (w : Nat) (hw2 : w = 13 ∨ w = 14) :
    (if w = 13 then u64 (0 + 13) else 14) = w := by
  rcases hw2 with rfl | rfl
  · decide
  · decide

theorem fresh_sub (w : Nat) (hw2 : w = 13 ∨ w = 14) :
    subU64 w 8 ≤ 7 ∧ subU64 w 8 = w - 8 := by
  rcases hw2 with rfl | rfl
  · exact ⟨by decide, by decide⟩
  · exact ⟨by decide, by decide⟩

theorem fresh_merge (v : Nat) (hv : v < 2 ^ 14) :
    Int.lor 0 (i64 ((v : Int) * 2 ^ 0)) = (v : Int) := by
  have h1 : i64 ((v : Int) * 2 ^ 0) = (v : Int) := by
    have e62 : (2 : Int) ^ 62 = 4611686018427387904 := by norm_num
    have hv2 : v < 16384 := hv
    rw [pow_zero, mul_one]
    exact i64_small _ (Int.ofNat_nonneg _) (by rw [e62]; omega)
  rw [h1]
  show ((0 ||| v : Nat) : Int) = (v : Int)
  simp

theorem fresh_byte (v : Nat) : toByte (Int.land (v : Int) 255) = v % 256 := by
  have h1 : Int.land (v : Int) 255 = ((v &&& 255 : Nat) : Int) := rfl
  have h2 : v &&& 255 = v % 256 := Nat.and_pow_two_sub_one_eq_mod v 8
  rw [h1, h2]
  unfold toByte
  omega

theorem fresh_shift (v : Nat) : ((v : Int) >>> 8) = ((v / 256 : Nat) : Int) := by
  show ((v >>> 8 : Nat) : Int) = ((v / 256 : Nat) : Int)
  rw [Nat.shiftRight_eq_div_pow]

/-- C14: when the encoder, on the accumulator `b` it holds after merging a
byte, makes an emission decision and emits the value `v` of a window of `w`
bits (the step stores the symbols `alphabet[v % 91]`, `alphabet[v / 91]` and
shifts `w` bits out), then `w` is 13 or 14, `(v % 91) + 91 * (v / 91) = v`,
`v < 2^w`, and `(v & 8191) > 88` holds exactly when `w = 13`. On the decoder:
whenever `decode` is given two symbols that its lookup resolves to the digits
`v % 91` and `v / 91`, it holds the first digit pending, and at the second
it recombines the digits to `v`, merges `v` into its accumulator and takes
the 13-bit branch exactly when `w = 13`; on a decoder holding no bits it
thereby stores the low eight bits of `v`, keeps `v / 256` and holds `w - 8`
bits. Under the standard alphabet the two symbols the encoder stored are
resolved to these digits, so that a decoder holding no bits reads the two
stored symbols back as `v`. -/
theorem digit_pair_decodes_back (enc : Encoding) (s s1 : EncState) (x : Nat)
    (hemit : u64 (s.n + 8) > 13) (h : encodeByte enc s x = some s1) :
    ∃ w c0 c1, (w = 13 ∨ w = 14) ∧
      s1.v = (s.b ||| u64 ((u64 x &&& 255) <<< s.n)) % 2 ^ w ∧
      s1.b = (s.b ||| u64 ((u64 x &&& 255) <<< s.n)) >>> w ∧
      s1.n = subU64 (u64 (s.n + 8)) w ∧
      enc.encode[s1.v % 91]? = some c0 ∧ enc.encode[s1.v / 91]? = some c1 ∧
      s1.dst[s.pos]? = some c0 ∧ s1.dst[s.pos + 1]? = some c1 ∧
      s1.v % 91 + 91 * (s1.v / 91) = s1.v ∧
      i64 (((s1.v % 91 : Nat) : Int) + i64 (((s1.v / 91 : Nat) : Int) * 91)) = (s1.v : Int) ∧
      s1.v < 2 ^ w ∧
      (Int.land (s1.v : Int) 8191 > 88 ↔ w = 13) ∧
      (enc.encode = encodeStd →
        c0 ∈ encodeStd ∧ buildDecodemap encodeStd 0 (fun _ => 0) c0 = s1.v % 91 ∧
        c1 ∈ encodeStd ∧ buildDecodemap encodeStd 0 (fun _ => 0) c1 = s1.v / 91) ∧
      (∀ (d : DecState) (ch0 ch1 : Nat), d.v < 0 →
        ch0 ∈ encodeStd → buildDecodemap encodeStd 0 (fun _ => 0) ch0 = s1.v % 91 →
        ch1 ∈ encodeStd → buildDecodemap encodeStd 0 (fun _ => 0) ch1 = s1.v / 91 →
        decodeChar (buildDecodemap encodeStd 0 (fun _ => 0)) d ch0 =
          some { d with c := s1.v % 91, v := ((s1.v % 91 : Nat) : Int) } ∧
        decodeChar (buildDecodemap encodeStd 0 (fun _ => 0))
            { d with c := s1.v % 91, v := ((s1.v % 91 : Nat) : Int) } ch1 =
          (match decodeEmit (d.dst.length + 1)
            { d with c := s1.v / 91, v := (s1.v : Int),
                     b := Int.lor d.b (i64 ((s1.v : Int) * 2 ^ d.n)),
                     n := if w = 13 then u64 (d.n + 13) else 14 } with
          | none => none
          | some d2 => some { d2 with v := -1 }) ∧
        (d.b = 0 → d.n = 0 → d.outpos < d.dst.length →
          decodeChar (buildDecodemap encodeStd 0 (fun _ => 0))
              { d with c := s1.v % 91, v := ((s1.v % 91 : Nat) : Int) } ch1 =
            some { v := -1, b := ((s1.v / 256 : Nat) : Int), c := s1.v / 91,
                   outpos := d.outpos + 1, n := w - 8,
                   dst := d.dst.set d.outpos (s1.v % 256) })) ∧
      (enc.encode = encodeStd →
        ∀ d : DecState, d.v < 0 → d.b = 0 → d.n = 0 → d.outpos < d.dst.length →
          decodeLoop (buildDecodemap encodeStd 0 (fun _ => 0)) d [c0, c1] =
            some { v := -1, b := ((s1.v / 256 : Nat) : Int), c := s1.v / 91,
                   outpos := d.outpos + 1, n := w - 8,
                   dst := d.dst.set d.outpos (s1.v % 256) }) := by
  simp only [encodeByte, if_pos hemit] at h
  generalize s.b ||| u64 ((u64 x &&& 255) <<< s.n) = m at h ⊢
  rw [and_8191, and_16383] at h
  have key : ∀ (w v : Nat) (c0 c1 : Nat), (w = 13 ∨ w = 14) → v < 2 ^ w →
      (Int.land (v : Int) 8191 > 88 ↔ w = 13) →
      enc.encode[v % 91]? = some c0 → enc.encode[v / 91]? = some c1 →
      (enc.encode = encodeStd →
        c0 ∈ encodeStd ∧ buildDecodemap encodeStd 0 (fun _ => 0) c0 = v % 91 ∧
        c1 ∈ encodeStd ∧ buildDecodemap encodeStd 0 (fun _ => 0) c1 = v / 91) ∧
      (∀ (d : DecState) (ch0 ch1 : Nat), d.v < 0 →
        ch0 ∈ encodeStd → buildDecodemap encodeStd 0 (fun _ => 0) ch0 = v % 91 →
        ch1 ∈ encodeStd → buildDecodemap encodeStd 0 (fun _ => 0) ch1 = v / 91 →
        decodeChar (buildDecodemap encodeStd 0 (fun _ => 0)) d ch0 =
          some { d with c := v % 91, v := ((v % 91 : Nat) : Int) } ∧
        decodeChar (buildDecodemap encodeStd 0 (fun _ => 0))
            { d with c := v % 91, v := ((v % 91 : Nat) : Int) } ch1 =
          (match decodeEmit (d.dst.length + 1)
            { d with c := v / 91, v := (v : Int),
                     b := Int.lor d.b (i64 ((v : Int) * 2 ^ d.n)),
                     n := if w = 13 then u64 (d.n + 13) else 14 } with
          | none => none
          | some d2 => some { d2 with v := -1 }) ∧
        (d.b = 0 → d.n = 0 → d.outpos < d.dst.length →
          decodeChar (buildDecodemap encodeStd 0 (fun _ => 0))
              { d with c := v % 91, v := ((v % 91 : Nat) : Int) } ch1 =
            some { v := -1, b := ((v / 256 : Nat) : Int), c := v / 91,
                   outpos := d.outpos + 1, n := w - 8,
                   dst := d.dst.set d.outpos (v % 256) })) ∧
      (enc.encode = encodeStd →
        ∀ d : DecState, d.v < 0 → d.b = 0 → d.n = 0 → d.outpos < d.dst.length →
          decodeLoop (buildDecodemap encodeStd 0 (fun _ => 0)) d [c0, c1] =
            some { v := -1, b := ((v / 256 : Nat) : Int), c := v / 91,
                   outpos := d.outpos + 1, n := w - 8,
                   dst := d.dst.set d.outpos (v % 256) }) := by
    intro w v c0 c1 hw2 hvw hiff h0 h1
    have hv14 : v < 2 ^ 14 := by
      rcases hw2 with rfl | rfl
      · exact lt_of_lt_of_le hvw (by norm_num)
      · exact hvw
    have hB : ∀ (d : DecState) (ch0 ch1 : Nat), d.v < 0 →
        ch0 ∈ encodeStd → buildDecodemap encodeStd 0 (fun _ => 0) ch0 = v % 91 →
        ch1 ∈ encodeStd → buildDecodemap encodeStd 0 (fun _ => 0) ch1 = v / 91 →
        decodeChar (buildDecodemap encodeStd 0 (fun _ => 0)) d ch0 =
          some { d with c := v % 91, v := ((v % 91 : Nat) : Int) } ∧
        decodeChar (buildDecodemap encodeStd 0 (fun _ => 0))
            { d with c := v % 91, v := ((v % 91 : Nat) : Int) } ch1 =
          (match decodeEmit (d.dst.length + 1)
            { d with c := v / 91, v := (v : Int),
                     b := Int.lor d.b (i64 ((v : Int) * 2 ^ d.n)),
                     n := if w = 13 then u64 (d.n + 13) else 14 } with
          | none => none
          | some d2 => some { d2 with v := -1 }) ∧
        (d.b = 0 → d.n = 0 → d.outpos < d.dst.length →
          decodeChar (buildDecodemap encodeStd 0 (fun _ => 0))
              { d with c := v % 91, v := ((v % 91 : Nat) : Int) } ch1 =
            some { v := -1, b := ((v / 256 : Nat) : Int), c := v / 91,
                   outpos := d.outpos + 1, n := w - 8,
                   dst := d.dst.set d.outpos (v % 256) }) := ?_
    · have hA : enc.encode = encodeStd →
          c0 ∈ encodeStd ∧ buildDecodemap encodeStd 0 (fun _ => 0) c0 = v % 91 ∧
          c1 ∈ encodeStd ∧ buildDecodemap encodeStd 0 (fun _ => 0) c1 = v / 91 := by
        intro henc
        rw [henc] at h0 h1
        exact ⟨(encodeStd_resolves _ _ h0).1, (encodeStd_resolves _ _ h0).2,
          (encodeStd_resolves _ _ h1).1, (encodeStd_resolves _ _ h1).2⟩
      refine ⟨hA, hB, fun henc d hneg hb hn hroom => ?_⟩
      obtain ⟨hin0, hdm0, hin1, hdm1⟩ := hA henc
      obtain ⟨hfirst, _, hfresh⟩ := hB d c0 c1 hneg hin0 hdm0 hin1 hdm1
      simp only [decodeLoop, hfirst, hfresh hb hn hroom]
    · intro d ch0 ch1 hneg hin0 hdm0 hin1 hdm1
      have hnn : ¬ (((v % 91 : Nat) : Int) < 0) := not_lt.mpr (Int.ofNat_nonneg _)
      have hfirst : decodeChar (buildDecodemap encodeStd 0 (fun _ => 0)) d ch0 =
          some { d with c := v % 91, v := ((v % 91 : Nat) : Int) } := by
        simp only [decodeChar, if_pos hneg, if_pos hin0, hdm0]
      have hpair : decodeChar (buildDecodemap encodeStd 0 (fun _ => 0))
            { d with c := v % 91, v := ((v % 91 : Nat) : Int) } ch1 =
          (match decodeEmit (d.dst.length + 1)
            { d with c := v / 91, v := (v : Int),
                     b := Int.lor d.b (i64 ((v : Int) * 2 ^ d.n)),
                     n := if w = 13 then u64 (d.n + 13) else 14 } with
          | none => none
          | some d2 => some { d2 with v := -1 }) := by
        simp only [decodeChar, if_neg hnn, if_pos hin1, hdm1, recombine v hv14]
        by_cases h13 : w = 13
        · rw [if_pos h13, if_pos (hiff.mpr h13)]
        · rw [if_neg h13, if_neg (fun hgt => h13 (hiff.mp hgt))]
      refine ⟨hfirst, hpair, fun hb hn hroom => ?_⟩
      have hsub := fresh_sub w hw2
      rw [hpair, hb, hn, fresh_width w hw2, fresh_merge v hv14, decodeEmit]
      simp only [fresh_byte, writeAt_lt _ _ _ hroom, fresh_shift, hsub.2]
      rw [if_pos (by rw [← hsub.2]; exact hsub.1)]
  by_cases h88 : m % 8192 > 88
  · rw [if_pos h88] at h
    obtain ⟨c0, c1, h0, h1, hp, rfl⟩ := (encodePair_eq_some enc _ _ _ _ _).mp h
    have hv : m % 8192 < 2 ^ 14 := by
      have : (2 : Nat) ^ 14 = 16384 := by norm_num
      omega
    have hlt : m % 8192 < 2 ^ 13 := Nat.mod_lt _ (by norm_num)
    have hiff : Int.land ((m % 8192 : Nat) : Int) 8191 > 88 ↔ 13 = 13 := by
      rw [land_cast]
      constructor
      · intro _
        rfl
      · intro _
        have : m % 8192 % 8192 > 88 := by omega
        exact_mod_cast this
    refine ⟨13, c0, c1, Or.inl rfl, rfl, rfl, rfl, h0, h1, ?_, ?_, ?_, recombine _ hv, hlt,
      hiff, key 13 (m % 8192) c0 c1 (Or.inl rfl) hlt hiff h0 h1⟩
    · show ((s.dst.set s.pos c0).set (s.pos + 1) c1)[s.pos]? = some c0
      rw [List.getElem?_set_ne (by omega)]
      simp [List.getElem?_set_self, (by omega : s.pos < s.dst.length)]
    · show ((s.dst.set s.pos c0).set (s.pos + 1) c1)[s.pos + 1]? = some c1
      simp [List.getElem?_set_self, hp]
    · show m % 8192 % 91 + 91 * (m % 8192 / 91) = m % 8192
      omega
  · rw [if_neg h88] at h
    obtain ⟨c0, c1, h0, h1, hp, rfl⟩ := (encodePair_eq_some enc _ _ _ _ _).mp h
    have hv : m % 16384 < 2 ^ 14 := Nat.mod_lt _ (by norm_num)
    have hiff : Int.land ((m % 16384 : Nat) : Int) 8191 > 88 ↔ 14 = 13 := by
      rw [land_cast]
      constructor
      · intro hgt
        have : m % 16384 % 8192 > 88 := by exact_mod_cast hgt
        omega
      · intro h1413
        omega
    refine ⟨14, c0, c1, Or.inr rfl, rfl, rfl, rfl, h0, h1, ?_, ?_, ?_, recombine _ hv, hv,
      hiff, key 14 (m % 16384) c0 c1 (Or.inr rfl) hv hiff h0 h1⟩
    · show ((s.dst.set s.pos c0).set (s.pos + 1) c1)[s.pos]? = some c0
      rw [List.getElem?_set_ne (by omega)]
      simp [List.getElem?_set_self, (by omega : s.pos < s.dst.length)]
    · show ((s.dst.set s.pos c0).set (s.pos + 1) c1)[s.pos + 1]? = some c1
      simp [List.getElem?_set_self, hp]
    · show m % 16384 % 91 + 91 * (m % 16384 / 91) = m % 16384
      omega

/-- The theorem `digit_pair_decodes_back` at the standard alphabet, the
encoder state `n = 8`, `b = 255` and the byte 1: the merged accumulator is
511, emitted over a window of 13 bits as the symbols `'4'` (52) and `'F'`
(70); a decoder holding no bits reads the two symbols as the byte 255, with
`511 / 256 = 1` left in its accumulator and `13 - 8 = 5` bits held. -/
theorem digit_pair_decodes_back_witness :
    u64 (8 + 8) > 13 ∧
    encodeByte StdEncoding { n := 8, b := 255, v := 0, pos := 0, dst := [0, 0, 0, 0] } 1 =
      some { n := 3, b := 0, v := 511, pos := 2, dst := [52, 70, 0, 0] } ∧
    decodeLoop (buildDecodemap encodeStd 0 (fun _ => 0))
        { v := -1, b := 0, c := 0, outpos := 0, n := 0, dst := [0, 0] } [52, 70] =
      some { v := -1, b := 1, c := 5, outpos := 1, n := 5, dst := [255, 0] } ∧
    ∃ w c0 c1, (w = 13 ∨ w = 14) ∧ (511 : Nat) < 2 ^ w ∧
      (Int.land ((511 : Nat) : Int) 8191 > 88 ↔ w = 13) ∧
      StdEncoding.encode[511 % 91]? = some c0 ∧ StdEncoding.encode[511 / 91]? = some c1 ∧
      (StdEncoding.encode = encodeStd →
        c0 ∈ encodeStd ∧ buildDecodemap encodeStd 0 (fun _ => 0) c0 = 511 % 91 ∧
        c1 ∈ encodeStd ∧ buildDecodemap encodeStd 0 (fun _ => 0) c1 = 511 / 91) :=
  have h := digit_pair_decodes_back StdEncoding
    { n := 8, b := 255, v := 0, pos := 0, dst := [0, 0, 0, 0] }
    { n := 3, b := 0, v := 511, pos := 2, dst := [52, 70, 0, 0] } 1 (by decide) (by decide)
  ⟨by decide, by decide, by decide,
    let ⟨w, c0, c1, hw, _, _, _, h0, h1, _, _, _, _, hlt, hiff, hstd, _, _⟩ := h
    ⟨w, c0, c1, hw, hlt, hiff, h0, h1, hstd⟩⟩

/-! ## The encoder: values, accumulator, buffer -/

/-- C13: with a 91-symbol alphabet, after any prefix `pre` of the input the
loop of `Encode` has returned, the value `v` it emitted last and the
accumulator `b` (the tail value once the input is exhausted) are below
`91 * 91 = 8281`, so `v % 91`, `v / 91`, `b % 91` and `b / 91` are in range
of the alphabet; and whatever byte comes next, the window the loop would
emit (13 bits when `(b & 8191) > 88`, else 14 bits) is below 8281. -/
theorem Encode_values_fit (enc : Encoding) (hlen : enc.encode.length = 91)
    (pre post dst : List Nat) (hroom : 2 * (pre ++ post).length ≤ dst.length) :
    ∃ s, encodeLoop enc { n := 0, b := 0, v := 0, pos := 0, dst := dst } pre = some s ∧
      s.v < 91 * 91 ∧ s.v % 91 < enc.encode.length ∧ s.v / 91 < enc.encode.length ∧
      s.b < 91 * 91 ∧ s.b % 91 < enc.encode.length ∧ s.b / 91 < enc.encode.length ∧
      ∀ x, (if (s.b ||| u64 ((u64 x &&& 255) <<< s.n)) &&& 8191 > 88
              then (s.b ||| u64 ((u64 x &&& 255) <<< s.n)) &&& 8191
              else (s.b ||| u64 ((u64 x &&& 255) <<< s.n)) &&& 16383) < 91 * 91 := by
  have hroom2 : 2 * pre.length ≤ dst.length := by
    rw [List.length_append] at hroom
    omega
  obtain ⟨s, h1, hn, hb, hv, _, _, _⟩ := encodeLoop_run enc hlen pre dst hroom2
  have hb13 : s.b < 8192 := lt_of_lt_of_le hb (Nat.pow_le_pow_right (by norm_num) hn)
  refine ⟨s, h1, hv, ?_, ?_, ?_, ?_, ?_, ?_⟩
  · rw [hlen]
    exact Nat.mod_lt _ (by norm_num)
  · rw [hlen]
    omega
  · omega
  · rw [hlen]
    exact Nat.mod_lt _ (by norm_num)
  · rw [hlen]
    omega
  · intro x
    generalize s.b ||| u64 ((u64 x &&& 255) <<< s.n) = m
    rw [and_8191, and_16383]
    split <;> omega

/-- The theorem `Encode_values_fit` at the standard alphabet and the input
`[0xFF, 0x01]`, after its whole. -/
theorem Encode_values_fit_witness :
    StdEncoding.encode.length = 91 ∧ 2 * ([0xFF, 0x01] ++ ([] : List Nat)).length ≤ 4 ∧
    ∃ s, encodeLoop StdEncoding { n := 0, b := 0, v := 0, pos := 0, dst := [0, 0, 0, 0] }
        [0xFF, 0x01] = some s ∧ s.v < 91 * 91 ∧ s.b < 91 * 91 :=
  have h := Encode_values_fit StdEncoding (by decide) [0xFF, 0x01] [] [0, 0, 0, 0] (by decide)
  ⟨by decide, by decide,
    let ⟨s, h1, hv, _, _, hb, _⟩ := h
    ⟨s, h1, hv, hb⟩⟩

/-- C15: with a 91-symbol alphabet, after any prefix `pre` of the input the
loop of `Encode` has returned with a bit count `n ≤ 13` and an accumulator
`b < 2^n`; hence merging the next byte, `b | byte << n`, stays below `2^21`
and within the 64-bit register, and where the loop subtracts 13 or 14 from
the count (`n + 8 > 13`) the subtraction does not wrap. With `pre` the whole
input, at most 13 bits remain. -/
theorem Encode_accumulator_invariant (enc : Encoding) (hlen : enc.encode.length = 91)
    (pre post dst : List Nat) (hroom : 2 * (pre ++ post).length ≤ dst.length) :
    ∃ s, encodeLoop enc { n := 0, b := 0, v := 0, pos := 0, dst := dst } pre = some s ∧
      s.n ≤ 13 ∧ s.b < 2 ^ s.n ∧
      (∀ x, s.b ||| ((u64 x &&& 255) <<< s.n) < 2 ^ 21 ∧
        u64 ((u64 x &&& 255) <<< s.n) = (u64 x &&& 255) <<< s.n) ∧
      u64 (s.n + 8) = s.n + 8 ∧
      (u64 (s.n + 8) > 13 →
        subU64 (u64 (s.n + 8)) 13 + 13 = s.n + 8 ∧ subU64 (u64 (s.n + 8)) 14 + 14 = s.n + 8) := by
  have hroom2 : 2 * pre.length ≤ dst.length := by
    rw [List.length_append] at hroom
    omega
  obtain ⟨s, h1, hn, hb, _, _, _, _⟩ := encodeLoop_run enc hlen pre dst hroom2
  have hu := u64_small (s.n + 8) (by omega)
  refine ⟨s, h1, hn, hb, ?_, hu, ?_⟩
  · intro x
    have hsh := shift_in_register x s.n hn
    refine ⟨?_, hsh⟩
    have hm := merge_lt s.b x s.n hb
    rw [hsh] at hm
    exact lt_of_lt_of_le hm (Nat.pow_le_pow_right (by norm_num) (by omega))
  · intro h13
    rw [hu] at h13 ⊢
    rw [subU64_small (s.n + 8) 13 (by omega) (by omega),
      subU64_small (s.n + 8) 14 (by omega) (by omega)]
    omega

/-- The theorem `Encode_accumulator_invariant` at the standard alphabet and
the input `[0xFF, 0x01]`, after its first byte. -/
theorem Encode_accumulator_invariant_witness :
    StdEncoding.encode.length = 91 ∧ 2 * ([0xFF] ++ [0x01]).length ≤ 4 ∧
    ∃ s, encodeLoop StdEncoding { n := 0, b := 0, v := 0, pos := 0, dst := [0, 0, 0, 0] }
        [0xFF] = some s ∧ s.n ≤ 13 ∧ s.b < 2 ^ s.n :=
  have h := Encode_accumulator_invariant StdEncoding (by decide) [0xFF] [0x01] [0, 0, 0, 0]
    (by decide)
  ⟨by decide, by decide,
    let ⟨s, h1, hn, hb, _⟩ := h
    ⟨s, h1, hn, hb⟩⟩

theorem replicate_getElem?_zero (n i : Nat) (h : i < n) :
    (List.replicate n 0)[i]? = some 0 := by
  rw [List.getElem?_replicate, if_pos h]

/-- C16: for a non-empty input `src` and a 91-symbol alphabet, `Encode` on
the buffer of exactly `2 * len(src)` bytes that `EncodeToString` allocates
returns without an index out of range: the digit pairs lie below the final
`pos`, the tail position is `pos`, and `pos < 2 * len(src)`. On any longer
destination `Encode` leaves every byte from index `2 * len(src)` on as it
was. -/
theorem Encode_fits_buffer (enc : Encoding) (hlen : enc.encode.length = 91)
    (src : List Nat) (hne : src ≠ []) :
    (∃ s out,
      encodeLoop enc
        { n := 0, b := 0, v := 0, pos := 0, dst := List.replicate (src.length * 2) 0 }
        src = some s ∧
      s.pos < 2 * src.length ∧
      enc.EncodeToString src = some out) ∧
    (∀ dst : List Nat, 2 * src.length ≤ dst.length →
      ∃ out, enc.Encode dst src = some out ∧ out.length = dst.length ∧
        ∀ i, 2 * src.length ≤ i → out[i]? = dst[i]?) := by
  have hpos : 0 < src.length := List.length_pos.mpr hne
  constructor
  · obtain ⟨s, out, h1, hinv, hout, _, _, _⟩ := Encode_spec enc hlen src
      (List.replicate (src.length * 2) 0) (by rw [List.length_replicate]; omega)
    obtain ⟨_, _, _, hp, _, _⟩ := hinv
    exact ⟨s, out, h1, by omega, hout⟩
  · intro dst hroom
    obtain ⟨s, out, _, hinv, hout, hl, _, hz⟩ := Encode_spec enc hlen src dst hroom
    obtain ⟨_, _, _, hp, _, _⟩ := hinv
    refine ⟨out, hout, hl, fun i hi => hz i ?_⟩
    split <;> omega

/-- The theorem `Encode_fits_buffer` at the standard alphabet and the input
`[0xFF, 0x01]`. -/
theorem Encode_fits_buffer_witness :
    StdEncoding.encode.length = 91 ∧ ([0xFF, 0x01] : List Nat) ≠ [] ∧
    ∃ out, StdEncoding.EncodeToString [0xFF, 0x01] = some out :=
  have h := Encode_fits_buffer StdEncoding (by decide) [0xFF, 0x01] (by decide)
  ⟨by decide, by decide,
    let ⟨⟨_, out, _, _, hout⟩, _⟩ := h
    ⟨out, hout⟩⟩

/-- C19: with a 91-symbol alphabet, `EncodeToString(src)` returns a string of
exactly `2 * len(src)` bytes (the empty string for the empty input), and
every position after the last symbol stored by `Encode` (from the final
`pos` on, or from `pos + 1` on when the tail stored a symbol at `pos`) holds
the zero byte. -/
theorem EncodeToString_length_and_padding (enc : Encoding)
    (hlen : enc.encode.length = 91) (src : List Nat) :
    ∃ s out,
      encodeLoop enc
        { n := 0, b := 0, v := 0, pos := 0, dst := List.replicate (src.length * 2) 0 }
        src = some s ∧
      enc.EncodeToString src = some out ∧
      out.length = 2 * src.length ∧
      (src = [] → out = []) ∧
      ∀ i, s.pos + (if s.n > 0 then 1 else 0) ≤ i → i < 2 * src.length → out[i]? = some 0 := by
  obtain ⟨s, out, h1, _, hout, hl, _, hz⟩ := Encode_spec enc hlen src
    (List.replicate (src.length * 2) 0) (by rw [List.length_replicate]; omega)
  rw [List.length_replicate] at hl
  refine ⟨s, out, h1, hout, by omega, ?_, ?_⟩
  · intro he
    subst he
    exact List.length_eq_zero.mp (by simpa using hl)
  · intro i hi hlt
    rw [hz i hi]
    exact replicate_getElem?_zero _ _ (by omega)

/-- The theorem `EncodeToString_length_and_padding` at the standard alphabet
and the input `[0xFF]`: the string is `"C\x00"`. -/
theorem EncodeToString_length_and_padding_witness :
    StdEncoding.encode.length = 91 ∧
    StdEncoding.EncodeToString [0xFF] = some [67, 0] ∧
    ∃ out, StdEncoding.EncodeToString [0xFF] = some out ∧ out.length = 2 * 1 :=
  have h := EncodeToString_length_and_padding StdEncoding (by decide) [0xFF]
  ⟨by decide, by decide,
    let ⟨_, out, _, hout, hl, _⟩ := h
    ⟨out, hout, hl⟩⟩

/-! ## The newline filter -/

/-- The inner loop of the filter over a buffer `A ++ G ++ X`, with `A` the
bytes kept so far, `G` the gap left by the bytes dropped, and `X` the bytes
not yet seen: the kept bytes of the next `count` bytes of `X` follow `A`. -/
theorem compactLoop_spec (count : Nat) (A G X : List Nat) (offset i : Nat)
    (ho : offset = A.length) (hi : i = A.length + G.length) (h : count ≤ X.length) :
    ∃ G1, compactLoop count (A ++ G ++ X) offset i =
        (A ++ (X.take count).filter notNewline ++ G1 ++ X.drop count,
          A.length + ((X.take count).filter notNewline).length) ∧
      (A ++ (X.take count).filter notNewline ++ G1 ++ X.drop count).length =
        (A ++ G ++ X).length := by
  induction count generalizing A G X offset i with
  | zero => exact ⟨G, by simp [compactLoop, ho], by simp⟩
  | succ count ih =>
    cases X with
    | nil => simp at h
    | cons b X1 =>
      have hc : count ≤ X1.length := by simpa using h
      have hb : (A ++ G ++ b :: X1)[i]? = some b := by
        rw [List.getElem?_append_right (by simp [hi])]
        simp [hi]
      simp only [compactLoop, hb, Option.getD_some]
      by_cases hk : b ≠ 13 ∧ b ≠ 10
      · have hnn : notNewline b = true := by simp [notNewline, hk.1, hk.2]
        rw [if_pos hk]
        have hset : (if i ≠ offset then (A ++ G ++ b :: X1).set offset b
            else A ++ G ++ b :: X1) = (A ++ [b]) ++ (G.drop 1 ++ (if G = [] then [] else [b]))
              ++ X1 := by
          cases G with
          | nil =>
            have : ¬ (i ≠ offset) := by simp [hi, ho]
            simp [this]
          | cons g G2 =>
            have : i ≠ offset := by simp [hi, ho]
            rw [if_pos this, ho, List.append_assoc, List.set_append_right _ _ (Nat.le_refl _)]
            simp
        rw [hset]
        obtain ⟨G1, h1, h2⟩ := ih (A ++ [b]) (G.drop 1 ++ (if G = [] then [] else [b])) X1
          (offset + 1) (i + 1) (by simp [ho])
          (by cases G <;> simp [hi]; omega) hc
        refine ⟨G1, ?_, ?_⟩
        · rw [h1]
          simp [List.take_succ_cons, List.filter_cons, hnn]
          omega
        · simp only [List.take_succ_cons, List.filter_cons, hnn, if_true, List.drop_succ_cons]
          have e : A ++ b :: List.filter notNewline (List.take count X1) ++ G1 ++
              List.drop count X1 = A ++ [b] ++ List.filter notNewline (List.take count X1) ++
              G1 ++ List.drop count X1 := by simp
          rw [e, h2]
          cases G <;> simp
      · have hnn : notNewline b = false := by
          simp only [notNewline]
          by_cases h13 : b = 13
          · simp [h13]
          · have h10 : b = 10 := by
              by_contra h10
              exact hk ⟨h13, h10⟩
            simp [h10]
        rw [if_neg hk]
        have hset : A ++ G ++ b :: X1 = A ++ (G ++ [b]) ++ X1 := by simp
        rw [hset]
        obtain ⟨G1, h1, h2⟩ := ih A (G ++ [b]) X1 offset (i + 1) ho
          (by simp [hi]; omega) hc
        refine ⟨G1, ?_, ?_⟩
        · rw [h1]
          simp [List.take_succ_cons, List.filter_cons, hnn]
        · simp only [List.take_succ_cons, List.filter_cons, hnn, List.drop_succ_cons]
          simpa using h2

theorem dataChunk_iff (c : List Nat) (e : Option Error) :
    dataChunk (c, e) = true ↔ 0 < (c.filter notNewline).length := by
  simp only [dataChunk, List.any_eq_true, List.length_pos]
  constructor
  · rintro ⟨x, hx, hn⟩ hnil
    have : x ∈ c.filter notNewline := List.mem_filter.mpr ⟨hx, hn⟩
    rw [hnil] at this
    exact absurd this (List.not_mem_nil _)
  · intro hne
    obtain ⟨x, hx⟩ := List.exists_mem_of_ne_nil _ hne
    exact ⟨x, (List.mem_filter.mp hx).1, (List.mem_filter.mp hx).2⟩

theorem blankChunk_iff (c : List Nat) (e : Option Error) :
    blankChunk (c, e) = true ↔ 0 < c.length ∧ (c.filter notNewline).length = 0 := by
  simp only [blankChunk, Bool.and_eq_true, Bool.not_eq_true', List.isEmpty_eq_false,
    List.all_eq_true, List.length_pos, List.length_eq_zero, List.filter_eq_nil_iff]
  constructor
  · rintro ⟨h1, h2⟩
    exact ⟨h1, fun x hx => by simpa using h2 x hx⟩
  · rintro ⟨h1, h2⟩
    exact ⟨h1, fun x hx => by simpa using h2 x hx⟩

/-- C18: for every finite script of upstream results whose chunks fit the
buffer `p`, `newlineFilteringReader.Read(p)` returns a count `k ≤ len(p)`
and leaves the length of `p` as it was. The upstream reader has then passed
the leading chunks made only of `'\r'`/`'\n'` and one more result. A count
`k > 0` is the number of bytes other than `'\r'`/`'\n'` of the first chunk
that has such a byte, which is the result next to the skipped chunks, and
`p[0:k]` holds exactly these bytes, in order; the error is that chunk's. A
count `k = 0` comes only when the upstream result after the skipped chunks
had no bytes, with that result's error, or when the script was exhausted,
which reads as 0 bytes and `io.EOF`. -/
theorem newlineFilteringReader_Read_filters (script : List (List Nat × Option Error))
    (p : List Nat) (hfit : ∀ d ∈ script, d.1.length ≤ p.length) :
    ∃ w p1 k e,
      newlineFilteringReader.Read { wrapped := { script := script } } p =
        some ({ wrapped := w }, p1, k, e) ∧
      p1.length = p.length ∧
      k ≤ p.length ∧
      w.script = (script.dropWhile blankChunk).drop 1 ∧
      (0 < k → ∃ d, (script.dropWhile blankChunk).head? = some d ∧
        script.find? dataChunk = some d ∧
        k = (d.1.filter notNewline).length ∧
        p1.take k = d.1.filter notNewline ∧ e = d.2) ∧
      (k = 0 → (∀ d, (script.dropWhile blankChunk).head? = some d → d.1 = [] ∧ e = d.2) ∧
        (script.dropWhile blankChunk = [] → e = some Error.EOF)) := by
  have spec : ∀ (script : List (List Nat × Option Error)) (p c : List Nat)
      (err : Option Error) (fuel : Nat) (X : List Nat),
      p = c ++ X → script.length + 2 ≤ fuel → (∀ d ∈ script, d.1.length ≤ p.length) →
      ∃ w p1 k e, filterLoop fuel { script := script } p c.length err = some (w, p1, k, e) ∧
        p1.length = p.length ∧ FilterPost ((c, err) :: script) w p1 k e := by
    intro script
    induction script with
    | nil =>
      intro p c err fuel X hp hfuel _
      obtain ⟨f, rfl⟩ : ∃ f, fuel = f + 2 := ⟨fuel - 2, by simp at hfuel; omega⟩
      subst hp
      by_cases hc : c.length > 0
      · obtain ⟨G1, hcl, hlen⟩ := compactLoop_spec c.length [] [] (c ++ X) 0 0 rfl rfl (by simp)
        simp only [List.nil_append, List.take_left, List.drop_left, List.length_nil,
          Nat.zero_add] at hcl hlen
        simp only [filterLoop, if_pos hc, hcl,
          if_pos (by simp : c.length ≤ (c ++ X).length)]
        by_cases hoff : (c.filter notNewline).length > 0
        · rw [if_pos hoff]
          have hnb : blankChunk (c, err) = false := by
            rw [Bool.eq_false_iff]
            intro hb
            have := ((blankChunk_iff c err).mp hb).2
            omega
          refine ⟨_, _, _, _, rfl, hlen, ?_, ?_, ?_⟩
          · simp [List.dropWhile, hnb]
          · intro _
            refine ⟨(c, err), ?_, ?_, rfl, ?_, rfl⟩
            · simp [List.dropWhile, hnb]
            · simp [List.find?, (dataChunk_iff c err).mpr hoff]
            · rw [List.append_assoc]
              exact List.take_left _ _
          · intro h0
            omega
        · rw [if_neg hoff]
          have hb : blankChunk (c, err) = true :=
            (blankChunk_iff c err).mpr ⟨hc, by omega⟩
          refine ⟨_, _, _, _, rfl, ?_, ?_, ?_, ?_⟩
          · simpa [Reader.Read] using hlen
          · simp [Reader.Read, List.dropWhile, hb]
          · intro hk
            simp [Reader.Read] at hk
          · intro _
            refine ⟨fun d hd => ?_, fun _ => ?_⟩
            · simp [List.dropWhile, hb] at hd
            · simp [Reader.Read]
      · have hc0 : c = [] := List.length_eq_zero.mp (by omega)
        subst hc0
        refine ⟨{ script := [] }, [] ++ X, 0, err, by simp [filterLoop], rfl, ?_, ?_, ?_⟩
        · simp [List.dropWhile, blankChunk]
        · intro hk
          simp at hk
        · intro _
          refine ⟨fun d hd => ?_, fun hnil => ?_⟩
          · simp [List.dropWhile, blankChunk] at hd
            rw [← hd]
            exact ⟨rfl, rfl⟩
          · simp [List.dropWhile, blankChunk] at hnil
    | cons c2 rest ih =>
      intro p c err fuel X hp hfuel hfit
      obtain ⟨f, rfl⟩ : ∃ f, fuel = f + 1 := ⟨fuel - 1, by simp at hfuel; omega⟩
      subst hp
      by_cases hc : c.length > 0
      · obtain ⟨G1, hcl, hlen⟩ := compactLoop_spec c.length [] [] (c ++ X) 0 0 rfl rfl (by simp)
        simp only [List.nil_append, List.take_left, List.drop_left, List.length_nil,
          Nat.zero_add] at hcl hlen
        simp only [filterLoop, if_pos hc, hcl,
          if_pos (by simp : c.length ≤ (c ++ X).length)]
        by_cases hoff : (c.filter notNewline).length > 0
        · rw [if_pos hoff]
          have hnb : blankChunk (c, err) = false := by
            rw [Bool.eq_false_iff]
            intro hb
            have := ((blankChunk_iff c err).mp hb).2
            omega
          refine ⟨_, _, _, _, rfl, hlen, ?_, ?_, ?_⟩
          · simp [List.dropWhile, hnb]
          · intro _
            refine ⟨(c, err), ?_, ?_, rfl, ?_, rfl⟩
            · simp [List.dropWhile, hnb]
            · simp [List.find?, (dataChunk_iff c err).mpr hoff]
            · rw [List.append_assoc]
              exact List.take_left _ _
          · intro h0
            omega
        · rw [if_neg hoff]
          have hb : blankChunk (c, err) = true :=
            (blankChunk_iff c err).mpr ⟨hc, by omega⟩
          have hnd : dataChunk (c, err) = false := by
            rw [Bool.eq_false_iff]
            intro hd
            exact hoff ((dataChunk_iff c err).mp hd)
          obtain ⟨c2b, e2⟩ := c2
          have hfit2 : c2b.length ≤ (c ++ X).length := hfit (c2b, e2) (List.mem_cons_self _ _)
          have htake : c2b.take (c.filter notNewline ++ G1 ++ X).length = c2b := by
            rw [hlen]
            exact List.take_of_length_le hfit2
          simp only [Reader.Read, htake]
          obtain ⟨w, p1, k, e, h1, hl1, hpost⟩ := ih
            (c2b ++ (c.filter notNewline ++ G1 ++ X).drop c2b.length) c2b e2 f
            ((c.filter notNewline ++ G1 ++ X).drop c2b.length) rfl
            (by simp at hfuel; omega)
            (fun d hd => by
              have := hfit d (List.mem_cons_of_mem _ hd)
              simp only [List.length_append, List.length_drop] at hlen ⊢
              simp only [List.length_append] at this hfit2
              omega)
          refine ⟨w, p1, k, e, h1, ?_, ?_⟩
          · rw [hl1]
            simp only [List.length_append, List.length_drop] at hlen ⊢
            simp only [List.length_append] at hfit2
            omega
          · obtain ⟨hp1, hp2, hp3⟩ := hpost
            refine ⟨?_, ?_, ?_⟩
            · rw [hp1]
              simp [List.dropWhile, hb]
            · intro hk
              obtain ⟨d, hd0, hd1, hd2, hd3, hd4⟩ := hp2 hk
              refine ⟨d, ?_, ?_, hd2, hd3, hd4⟩
              · rw [← hd0]
                simp [List.dropWhile, hb]
              · rw [← hd1]
                simp [List.find?, hnd]
            · intro hk
              obtain ⟨hq1, hq2⟩ := hp3 hk
              refine ⟨fun d hd => ?_, fun hnil => ?_⟩
              · apply hq1 d
                rw [← hd]
                simp [List.dropWhile, hb]
              · apply hq2
                rw [← hnil]
                simp [List.dropWhile, hb]
      · have hc0 : c = [] := List.length_eq_zero.mp (by omega)
        subst hc0
        refine ⟨{ script := c2 :: rest }, [] ++ X, 0, err, by simp [filterLoop], rfl,
          ?_, ?_, ?_⟩
        · simp [List.dropWhile, blankChunk]
        · intro hk
          simp at hk
        · intro _
          refine ⟨fun d hd => ?_, fun hnil => ?_⟩
          · simp [List.dropWhile, blankChunk] at hd
            rw [← hd]
            exact ⟨rfl, rfl⟩
          · simp [List.dropWhile, blankChunk] at hnil
  cases script with
  | nil =>
    refine ⟨{ script := [] }, p, 0, some Error.EOF, ?_, rfl, Nat.zero_le _, rfl, ?_, ?_⟩
    · simp [newlineFilteringReader.Read, Reader.Read, filterLoop]
    · intro hk
      exact absurd hk (Nat.lt_irrefl 0)
    · intro _
      exact ⟨fun d hd => by simp at hd, fun _ => rfl⟩
  | cons c0 rest =>
    obtain ⟨c, err⟩ := c0
    have hfit0 : c.length ≤ p.length := hfit (c, err) (List.mem_cons_self _ _)
    have htake : c.take p.length = c := List.take_of_length_le hfit0
    obtain ⟨w, p1, k, e, h1, hl1, hp1, hp2, hp3⟩ := spec rest
      (c ++ p.drop c.length) c err (rest.length + 1 + 2) (p.drop c.length) rfl (by omega)
      (fun d hd => by
        have := hfit d (List.mem_cons_of_mem _ hd)
        simp only [List.length_append, List.length_drop]
        omega)
    refine ⟨w, p1, k, e, ?_, ?_, ?_, hp1, hp2, hp3⟩
    · simp only [newlineFilteringReader.Read, Reader.Read, htake, List.length_cons, h1]
    · rw [hl1]
      simp only [List.length_append, List.length_drop]
      omega
    · by_cases hk : 0 < k
      · obtain ⟨d, _, hd1, hd2, _, _⟩ := hp2 hk
        have hmem : d ∈ (c, err) :: rest := List.mem_of_find?_eq_some hd1
        have hle := hfit d hmem
        have hfl : (d.1.filter notNewline).length ≤ d.1.length := List.length_filter_le _ _
        omega
      · omega

/-- The theorem `newlineFilteringReader_Read_filters` at the upstream chunks
`"\r\n"`, `"A\rB"`, `"C"` and a buffer of four bytes: `Read` returns 2 with
`"AB"` in front of the buffer and leaves `"C"` upstream. -/
theorem newlineFilteringReader_Read_filters_witness :
    (∀ d ∈ [([13, 10], (none : Option Error)), ([65, 13, 66], none), ([67], none)],
      d.1.length ≤ [0, 0, 0, 0].length) ∧
    newlineFilteringReader.Read
        { wrapped := { script := [([13, 10], none), ([65, 13, 66], none), ([67], none)] } }
        [0, 0, 0, 0] =
      some ({ wrapped := { script := [([67], none)] } }, [65, 66, 66, 0], 2, none) ∧
    ∃ w p1 k e,
      newlineFilteringReader.Read
          { wrapped := { script := [([13, 10], none), ([65, 13, 66], none), ([67], none)] } }
          [0, 0, 0, 0] = some ({ wrapped := w }, p1, k, e) ∧
      p1.length = 4 ∧ k ≤ 4 :=
  have h := newlineFilteringReader_Read_filters
    [([13, 10], none), ([65, 13, 66], none), ([67], none)] [0, 0, 0, 0] (by decide)
  ⟨by decide, by decide,
    let ⟨w, p1, k, e, h1, hl, hk, _⟩ := h
    ⟨w, p1, k, e, h1, hl, hk⟩⟩

end Base91
